import Mathlib

/-!
Oscillator-Filter: scheduling, snapshot queue, trigger capture and spectrum display.

A shallow embedding of `OscillatorFilter.h` and theorems about it.

* `Voice`: the chunk loop of `Voice::renderNextBlock`, as the trace of sub-blocks it
  processes and of the offsets at which it recomputes the filter cutoff.
* `AbstractFifo`, `AudioBufferQueue`: the snapshot queue. `AudioBufferQueue::push` and
  `AudioBufferQueue::pop` are embedded from the header; the cursor arithmetic they delegate
  to is the JUCE class `juce::AbstractFifo`, embedded after the JUCE implementation.
* `ScopeDataCollector`: the trigger capture state machine `ScopeDataCollector::process`.
  A write outside the capture buffer is a failure (`none`).
* `ScopeComponent`: the normalisation loop of `ScopeComponent::timerCallback`, over an
  arbitrary ordered field and with the logarithm, the window and the transform as
  parameters. `jlimit`, `jmap` and `Decibels::gainToDecibels` are JUCE routines, embedded
  after the JUCE implementation.

Samples are exact numbers (rationals for the collector and the queue); rounding and
non-finite float values are outside the embedding.
-/

namespace Voice

/-- The constant `lfoUpdateRate` of `Voice` (samples between two cutoff updates). -/
def lfoUpdateRate : Nat := 101

/-- What one call of `renderNextBlock` did, as far as scheduling goes: the value of
`lfoUpdateCounter` when the call returns, the sub-blocks `(pos, max)` handed to
`processorChain.process`, in order, and the values of `pos` at which the
`if (lfoUpdateCounter == 0)` branch ran (a cutoff recomputation). -/
structure RenderTrace where
  lfoUpdateCounter : Nat
  chunks : List (Nat × Nat)
  updates : List Nat
deriving DecidableEq, Repr

/-- The `for (size_t pos = 0; pos < numSamples;)` loop of `renderNextBlock`, entered with
the given `pos` and `lfoUpdateCounter`. -/
def renderLoop (numSamples pos lfoUpdateCounter : Nat) : RenderTrace :=
  if _h : pos < numSamples then
    let max := min (numSamples - pos) lfoUpdateCounter
    let pos' := pos + max
    let counter' := lfoUpdateCounter - max
    if _hc : counter' = 0 then
      let r := renderLoop numSamples pos' lfoUpdateRate
      { r with chunks := (pos, max) :: r.chunks, updates := pos' :: r.updates }
    else
      let r := renderLoop numSamples pos' counter'
      { r with chunks := (pos, max) :: r.chunks }
  else
    { lfoUpdateCounter := lfoUpdateCounter, chunks := [], updates := [] }
termination_by 2 * (numSamples - pos) + (if lfoUpdateCounter = 0 then 1 else 0)
decreasing_by
  · simp only [lfoUpdateRate]
    by_cases h0 : lfoUpdateCounter = 0
    · simp [h0]
    · have h101 : ¬ ((101 : Nat) = 0) := by decide
      simp only [h0, h101, if_false]
      omega
  · have h0 : lfoUpdateCounter ≠ 0 := by omega
    have h1 : lfoUpdateCounter - min (numSamples - pos) lfoUpdateCounter ≠ 0 := _hc
    simp only [h0, h1, if_false]
    omega

/-- The scheduling part of `Voice::renderNextBlock (outputBuffer, startSample, numSamples)`
for a voice whose `lfoUpdateCounter` is `lfoUpdateCounter` on entry. -/
def renderNextBlock (numSamples lfoUpdateCounter : Nat) : RenderTrace :=
  renderLoop numSamples 0 lfoUpdateCounter


/-- The sub-blocks of a list start at `pos` and follow each other without gap or overlap. -/
def ConsecutiveFrom : Nat → List (Nat × Nat) → Prop
  | _, [] => True
  | pos, (p, m) :: rest => p = pos ∧ ConsecutiveFrom (pos + m) rest

/-- Number of cutoff recomputations in a run of `m` samples entered with counter `c`. -/
def updateCount (m c : Nat) : Nat := if m < c then 0 else (m - c) / 101 + 1

end Voice

/-- State of a `juce::AbstractFifo`: the total size given to the constructor and the two
cursors. The class belongs to the JUCE library that `AudioBufferQueue` is built on; the
operations below follow its implementation, in which the region between `validStart`
and `validEnd` is the readable one and one position is always left unused so that a full
FIFO can be told from an empty one. -/
structure AbstractFifo where
  bufferSize : Int
  validStart : Int
  validEnd : Int
deriving DecidableEq, Repr

/-- The four out-parameters of `prepareToWrite` and `prepareToRead`. -/
structure FifoRegion where
  startIndex1 : Int
  blockSize1 : Int
  startIndex2 : Int
  blockSize2 : Int
deriving DecidableEq, Repr

namespace AbstractFifo

/-- The constructor `AbstractFifo (int capacity)`: both cursors start at 0. -/
def create (capacity : Int) : AbstractFifo :=
  { bufferSize := capacity, validStart := 0, validEnd := 0 }

/-- The method `AbstractFifo::getNumReady`. -/
def getNumReady (f : AbstractFifo) : Int :=
  if f.validEnd ≥ f.validStart then f.validEnd - f.validStart
  else f.bufferSize - (f.validStart - f.validEnd)

/-- The method `AbstractFifo::getFreeSpace`: `bufferSize - getNumReady() - 1`. -/
def getFreeSpace (f : AbstractFifo) : Int :=
  f.bufferSize - f.getNumReady - 1

/-- The method `AbstractFifo::prepareToWrite (numToWrite, startIndex1, blockSize1,
startIndex2, blockSize2)` of JUCE (`juce_AbstractFifo.cpp`). The number of positions
granted is `jmin (numToWrite, freeSpace - 1)`: the last free position is never handed
out. -/
def prepareToWrite (f : AbstractFifo) (numToWrite : Int) : FifoRegion :=
  let vs := f.validStart
  let ve := f.validEnd
  let freeSpace := if ve ≥ vs then f.bufferSize - (ve - vs) else vs - ve
  let numToWrite := min numToWrite (freeSpace - 1)
  if numToWrite ≤ 0 then
    { startIndex1 := 0, blockSize1 := 0, startIndex2 := 0, blockSize2 := 0 }
  else
    let blockSize1 := min (f.bufferSize - ve) numToWrite
    let numToWrite := numToWrite - blockSize1
    { startIndex1 := ve, blockSize1 := blockSize1, startIndex2 := 0,
      blockSize2 := if numToWrite ≤ 0 then 0 else min numToWrite vs }

/-- The method `AbstractFifo::finishedWrite (numWritten)`. -/
def finishedWrite (f : AbstractFifo) (numWritten : Int) : AbstractFifo :=
  let newEnd := f.validEnd + numWritten
  let newEnd := if newEnd ≥ f.bufferSize then newEnd - f.bufferSize else newEnd
  { f with validEnd := newEnd }

/-- The method `AbstractFifo::prepareToRead (numWanted, startIndex1, blockSize1,
startIndex2, blockSize2)` of JUCE (`juce_AbstractFifo.cpp`). -/
def prepareToRead (f : AbstractFifo) (numWanted : Int) : FifoRegion :=
  let vs := f.validStart
  let ve := f.validEnd
  let numReady := if ve ≥ vs then ve - vs else f.bufferSize - (vs - ve)
  let numWanted := min numWanted numReady
  if numWanted ≤ 0 then
    { startIndex1 := 0, blockSize1 := 0, startIndex2 := 0, blockSize2 := 0 }
  else
    let blockSize1 := min (f.bufferSize - vs) numWanted
    let numWanted := numWanted - blockSize1
    { startIndex1 := vs, blockSize1 := blockSize1, startIndex2 := 0,
      blockSize2 := if numWanted ≤ 0 then 0 else min numWanted ve }

/-- The method `AbstractFifo::finishedRead (numRead)`. -/
def finishedRead (f : AbstractFifo) (numRead : Int) : AbstractFifo :=
  let newStart := f.validStart + numRead
  let newStart := if newStart ≥ f.bufferSize then newStart - f.bufferSize else newStart
  { f with validStart := newStart }

end AbstractFifo

/-- The routine `FloatVectorOperations::copy (dest, src, num)`: the first `num` values of `dest` are
replaced by the first `num` values of `src`. -/
def FloatVectorOperations.copy {α : Type} (dest src : List α) (num : Nat) : List α :=
  src.take num ++ dest.drop num

/-- State of an `AudioBufferQueue<SampleType>`: the FIFO cursors and the slot array. -/
structure AudioBufferQueue (α : Type) where
  abstractFifo : AbstractFifo
  buffers : List (List α)
deriving DecidableEq, Repr

namespace AudioBufferQueue

variable {α : Type}

/-- Constant `order`. -/
def order : Nat := 9
/-- Constant `bufferSize = 1U << order`. -/
def bufferSize : Nat := 1 <<< order
/-- Constant `numBuffers`. -/
def numBuffers : Nat := 5

/-- The method `AudioBufferQueue::push (dataToPush, numSamples)`; the pointer and the count are
the list `dataToPush` and its length. -/
def push (q : AudioBufferQueue α) (dataToPush : List α) : AudioBufferQueue α :=
  let numSamples := dataToPush.length
  let r := q.abstractFifo.prepareToWrite 1
  let buffers :=
    if r.blockSize1 > 0 then
      q.buffers.set r.startIndex1.toNat
        (FloatVectorOperations.copy (q.buffers.getD r.startIndex1.toNat []) dataToPush
          (min bufferSize numSamples))
    else q.buffers
  { abstractFifo := q.abstractFifo.finishedWrite r.blockSize1, buffers := buffers }

/-- The method `AudioBufferQueue::pop (outputBuffer)`: the queue afterwards and the contents of
`outputBuffer` afterwards. -/
def pop (q : AudioBufferQueue α) (outputBuffer : List α) : AudioBufferQueue α × List α :=
  let r := q.abstractFifo.prepareToRead 1
  let outputBuffer :=
    if r.blockSize1 > 0 then
      FloatVectorOperations.copy outputBuffer (q.buffers.getD r.startIndex1.toNat []) bufferSize
    else outputBuffer
  ({ q with abstractFifo := q.abstractFifo.finishedRead r.blockSize1 }, outputBuffer)

/-- A freshly constructed queue: `AbstractFifo abstractFifo { numBuffers }` and a slot
array whose contents are whatever the storage held. -/
def create (buffers : List (List α)) : AudioBufferQueue α :=
  { abstractFifo := AbstractFifo.create numBuffers, buffers := buffers }

/-- Shape of a queue object: five slots of 512 samples, cursors inside `[0, 5)`. -/
structure WF (q : AudioBufferQueue α) : Prop where
  size : q.abstractFifo.bufferSize = 5
  start_nonneg : 0 ≤ q.abstractFifo.validStart
  start_lt : q.abstractFifo.validStart < 5
  end_nonneg : 0 ≤ q.abstractFifo.validEnd
  end_lt : q.abstractFifo.validEnd < 5
  slots : q.buffers.length = 5
  slot_len : ∀ b ∈ q.buffers, b.length = bufferSize

/-- The unread snapshots, oldest first: the slots from the read cursor up to the write
cursor, wrapping around. -/
def unread (q : AudioBufferQueue α) : List (List α) :=
  (List.range q.abstractFifo.getNumReady.toNat).map fun (i : Nat) =>
    q.buffers.getD ((q.abstractFifo.validStart + (i : Int)) % q.abstractFifo.bufferSize).toNat []

/-- Push the given buffers one after the other. -/
def pushAll (q : AudioBufferQueue α) (bs : List (List α)) : AudioBufferQueue α :=
  bs.foldl push q

/-- Pop once into each of the given destination buffers, in order; the queue afterwards
and what each destination holds after its pop. -/
def popAll : AudioBufferQueue α → List (List α) → AudioBufferQueue α × List (List α)
  | q, [] => (q, [])
  | q, d :: ds =>
    let r := pop q d
    let rest := popAll r.1 ds
    (rest.1, r.2 :: rest.2)

/-- The states a queue object can be in: freshly constructed, or reached from such a
state by `push` and `pop` calls. -/
inductive Reachable : AudioBufferQueue α → Prop where
  | create (buffers : List (List α)) (h1 : buffers.length = numBuffers)
      (h2 : ∀ b ∈ buffers, b.length = bufferSize) : Reachable (create buffers)
  | push {q : AudioBufferQueue α} (dataToPush : List α) :
      Reachable q → Reachable (push q dataToPush)
  | pop {q : AudioBufferQueue α} (outputBuffer : List α) :
      Reachable q → Reachable (pop q outputBuffer).1

/-- The contents of the slot at the write cursor once `push` has copied `dataToPush` into
it: the pushed samples, followed by what the slot held before when fewer than `bufferSize`
samples are pushed. -/
def writtenSlot (q : AudioBufferQueue α) (dataToPush : List α) : List α :=
  FloatVectorOperations.copy (q.buffers.getD q.abstractFifo.validEnd.toNat []) dataToPush
    (min bufferSize dataToPush.length)

/-- A full-size buffer holding one value throughout. -/
def constBuffer (v : α) : List α := List.replicate bufferSize v

/-- A fresh queue whose five slots all hold the given value. -/
def fresh (v : α) : AudioBufferQueue α := create (List.replicate numBuffers (constBuffer v))

end AudioBufferQueue



/-- Sample values. `SampleType` is `float` in the program; the collector only compares
samples with `triggerLevel` and stores them, so exact rationals stand in for them. -/
abbrev Sample : Type := ℚ

namespace ScopeDataCollector

/-- The `enum class State` of `ScopeDataCollector`. -/
inductive State where
  | waitingForTrigger
  | collecting
deriving DecidableEq, Repr

end ScopeDataCollector

/-- The fields of a `ScopeDataCollector<SampleType>`; `audioBufferQueue` is the queue the
collector holds a reference to. -/
structure ScopeDataCollector where
  audioBufferQueue : AudioBufferQueue Sample
  buffer : List Sample
  numCollected : Nat
  prevSample : Sample
  state : ScopeDataCollector.State
deriving DecidableEq, Repr

namespace ScopeDataCollector

/-- Constant `triggerLevel = SampleType (0.05)`. -/
def triggerLevel : Sample := 5 / 100

/-- The value `SampleType (100)` that `prevSample` is set to at construction and after
a flush. -/
def sentinel : Sample := 100

/-- The value of `buffer.size()`: `AudioBufferQueue<SampleType>::bufferSize`. -/
def bufferSize : Nat := AudioBufferQueue.bufferSize

/-- A collector right after construction: waiting, `prevSample = 100`; the capture buffer
and `numCollected` have no initialiser, so any contents are possible. -/
def create (queueToUse : AudioBufferQueue Sample) (buffer : List Sample) (numCollected : Nat) :
    ScopeDataCollector :=
  { audioBufferQueue := queueToUse, buffer := buffer, numCollected := numCollected,
    prevSample := sentinel, state := State.waitingForTrigger }

/-- The first `while (index++ < numSamples)` loop of `process` (state `waitingForTrigger`).
The list is the part of the block not read yet; the result is the collector when the loop
is left and the samples still unread then (`break` leaves the ones after the crossing
sample, running off the end leaves none). -/
def waitLoop (c : ScopeDataCollector) : List Sample → ScopeDataCollector × List Sample
  | [] => (c, [])
  | currentSample :: data =>
    if currentSample ≥ triggerLevel ∧ c.prevSample < triggerLevel then
      ({ c with numCollected := 0, state := State.collecting }, data)
    else
      waitLoop { c with prevSample := currentSample } data

/-- The second `while (index++ < numSamples)` loop of `process` (state `collecting`).
A write `buffer[numCollected++]` outside the array gives `none`. After the flush the loop
is left by `break` and the samples still unread are never looked at. -/
def collectLoop (c : ScopeDataCollector) : List Sample → Option ScopeDataCollector
  | [] => some c
  | x :: data =>
    if c.numCollected < bufferSize then
      let c1 := { c with buffer := c.buffer.set c.numCollected x,
                         numCollected := c.numCollected + 1 }
      if c1.numCollected = bufferSize then
        some { c1 with audioBufferQueue := c1.audioBufferQueue.push c1.buffer,
                       state := State.waitingForTrigger,
                       prevSample := sentinel }
      else
        collectLoop c1 data
    else
      none

/-- The method `ScopeDataCollector::process (data, numSamples)`; the pointer and the count
are the list `data` and its length. -/
def process (c : ScopeDataCollector) (data : List Sample) : Option ScopeDataCollector :=
  let r := if c.state = State.waitingForTrigger then waitLoop c data else (c, data)
  if r.1.state = State.collecting then collectLoop r.1 r.2 else some r.1

/-- Consecutive `process` calls, one per block. -/
def processBlocks (c : ScopeDataCollector) (blocks : List (List Sample)) :
    Option ScopeDataCollector :=
  blocks.foldlM process c

/-- The per-sample transition as the specification words it: while waiting, a sample at or
above the trigger level whose predecessor was below it resets the count and starts
collecting with the next sample, any other sample becomes `prevSample`; while collecting,
the sample is appended, and when the buffer reaches `bufferSize` samples it is pushed to
the queue, the state goes back to waiting and `prevSample` becomes the sentinel. A
collecting state whose buffer is already full cannot take a sample (`none`). -/
def perSample (c : ScopeDataCollector) (s : Sample) : Option ScopeDataCollector :=
  match c.state with
  | State.waitingForTrigger =>
    if s ≥ triggerLevel ∧ c.prevSample < triggerLevel then
      some { c with numCollected := 0, state := State.collecting }
    else
      some { c with prevSample := s }
  | State.collecting =>
    if c.numCollected < bufferSize then
      if c.numCollected + 1 = bufferSize then
        some { c with buffer := c.buffer.set c.numCollected s,
                      numCollected := c.numCollected + 1,
                      audioBufferQueue := c.audioBufferQueue.push (c.buffer.set c.numCollected s),
                      state := State.waitingForTrigger,
                      prevSample := sentinel }
      else
        some { c with buffer := c.buffer.set c.numCollected s,
                      numCollected := c.numCollected + 1 }
    else
      none

/-- Feeding samples one at a time through the per-sample transition. -/
def feed (c : ScopeDataCollector) (samples : List Sample) : Option ScopeDataCollector :=
  samples.foldlM perSample c

/-- The next sample completes the capture buffer. -/
def completes (c : ScopeDataCollector) : Bool :=
  c.state = State.collecting && c.numCollected + 1 == bufferSize

/-- The part of a block that `process` reads: the samples up to and including the first one
that completes a capture buffer (all of them when none does). -/
def consumed (c : ScopeDataCollector) : List Sample → List Sample
  | [] => []
  | x :: data =>
    if completes c then [x]
    else
      match perSample c x with
      | some c1 => x :: consumed c1 data
      | none => [x]

/-- The states a collector can be in between two `process` calls. -/
inductive Reachable : ScopeDataCollector → Prop where
  | create (q : AudioBufferQueue Sample) (buffer : List Sample) (numCollected : Nat)
      (h : buffer.length = bufferSize) : Reachable (create q buffer numCollected)
  | process {c c1 : ScopeDataCollector} (data : List Sample) :
      Reachable c → process c data = some c1 → Reachable c1

/-- Shape of a collector between two calls: the capture buffer has its 512 entries, and
while collecting the count is a valid index into it. -/
def Inv (c : ScopeDataCollector) : Prop :=
  c.buffer.length = bufferSize ∧ (c.state = State.collecting → c.numCollected < bufferSize)

/-- The collector a flush leaves behind when sample `x` completes the buffer of `c`. -/
def flushed (c : ScopeDataCollector) (x : Sample) : ScopeDataCollector :=
  { audioBufferQueue := c.audioBufferQueue.push (c.buffer.set c.numCollected x),
    buffer := c.buffer.set c.numCollected x,
    numCollected := c.numCollected + 1,
    prevSample := sentinel,
    state := State.waitingForTrigger }

/-- A collector one sample short of a full capture buffer: it has collected 511 samples of
value 0 after a crossing whose predecessor sample was 0. -/
def nearlyFull : ScopeDataCollector :=
  { audioBufferQueue := AudioBufferQueue.fresh 0,
    buffer := AudioBufferQueue.constBuffer 0,
    numCollected := 511,
    prevSample := 0,
    state := State.collecting }

/-- A freshly constructed collector over a fresh queue. -/
def initial : ScopeDataCollector :=
  create (AudioBufferQueue.fresh 0) (AudioBufferQueue.constBuffer 0) 0

/-- A waiting collector whose last sample, 0, was below the trigger level. -/
def armed : ScopeDataCollector := { initial with prevSample := 0 }

end ScopeDataCollector

namespace ScopeComponent

variable {K : Type} [LinearOrderedField K]

/-- JUCE `jlimit (lowerLimit, upperLimit, valueToConstrain)`: the value clamped to the
closed range. -/
def jlimit (lowerLimit upperLimit valueToConstrain : K) : K :=
  if valueToConstrain < lowerLimit then lowerLimit
  else if upperLimit < valueToConstrain then upperLimit
  else valueToConstrain

/-- JUCE `jmap (sourceValue, sourceRangeMin, sourceRangeMax, targetRangeMin, targetRangeMax)`:
the linear remap of one range onto another. -/
def jmap (sourceValue sourceRangeMin sourceRangeMax targetRangeMin targetRangeMax : K) : K :=
  targetRangeMin
    + ((targetRangeMax - targetRangeMin) * (sourceValue - sourceRangeMin))
        / (sourceRangeMax - sourceRangeMin)

/-- JUCE `Decibels::defaultMinusInfinitydB = -100`, the value `gainToDecibels` gives for a
gain that is not positive when the caller passes no floor of its own. -/
def defaultMinusInfinitydB : K := -100

/-- JUCE `Decibels::gainToDecibels (gain)` with its default `minusInfinityDb`
(`juce_Decibels.h`): `gain > 0 ? jmax (minusInfinityDb, log10 (gain) * 20) : minusInfinityDb`;
the parameter `log10` stands for `std::log10`. -/
def gainToDecibels (log10 : K → K) (gain : K) : K :=
  if gain > 0 then max defaultMinusInfinitydB (log10 gain * 20) else defaultMinusInfinitydB

/-- Constant `mindB` of `timerCallback`. -/
def mindB : K := -160
/-- Constant `maxdB` of `timerCallback`. -/
def maxdB : K := 0

/-- The value `fft.getSize()` for an FFT of order `Queue::order`. -/
def fftSize : Nat := 1 <<< AudioBufferQueue.order

/-- The body of the loop `for (auto& s : spectrumData)` of `timerCallback`. -/
def displayValue (log10 : K → K) (s : K) : K :=
  jmap (jlimit mindB maxdB (gainToDecibels log10 s - gainToDecibels log10 (fftSize : K)))
    mindB maxdB 0 1

/-- The loop `for (auto& s : spectrumData)` of `timerCallback` over the whole array. -/
def normaliseSpectrum (log10 : K → K) (spectrumData : List K) : List K :=
  spectrumData.map (displayValue log10)

/-- The arrays a `ScopeComponent` keeps between timer ticks. -/
structure Data (K : Type) where
  audioBufferQueue : AudioBufferQueue K
  sampleData : List K
  spectrumData : List K

/-- The method `ScopeComponent::timerCallback`. The windowing table multiplication and the
magnitude-only forward transform are JUCE routines and are parameters here, each as the
map it applies to the `spectrumData` array. -/
def timerCallback (log10 : K → K) (multiplyWithWindowingTable : List K → List K)
    (performFrequencyOnlyForwardTransform : List K → List K) (d : Data K) : Data K :=
  let r := d.audioBufferQueue.pop d.sampleData
  let sampleData := r.2
  let spectrumData := FloatVectorOperations.copy d.spectrumData sampleData sampleData.length
  let spectrumData := multiplyWithWindowingTable spectrumData
  let spectrumData := performFrequencyOnlyForwardTransform spectrumData
  { audioBufferQueue := r.1, sampleData := sampleData,
    spectrumData := normaliseSpectrum log10 spectrumData }

end ScopeComponent

namespace Voice

theorem renderLoop_done (n pos c : Nat) (h : ¬ pos < n) :
    renderLoop n pos c = { lfoUpdateCounter := c, chunks := [], updates := [] } := by
  rw [renderLoop]
  simp [h]

theorem renderLoop_short (n pos c : Nat) (h : pos < n) (hc : n - pos < c) :
    renderLoop n pos c =
      { lfoUpdateCounter := c - (n - pos), chunks := [(pos, n - pos)], updates := [] } := by
  rw [renderLoop]
  have hmin : min (n - pos) c = n - pos := by omega
  have hne : ¬ (c - (n - pos) = 0) := by omega
  have hpos : pos + (n - pos) = n := by omega
  simp only [h, hmin, hne, hpos, dite_true, dite_false]
  rw [renderLoop_done n n _ (by omega)]

theorem renderLoop_full (n pos c : Nat) (h : pos < n) (hc : c ≤ n - pos) :
    renderLoop n pos c =
      { lfoUpdateCounter := (renderLoop n (pos + c) lfoUpdateRate).lfoUpdateCounter,
        chunks := (pos, c) :: (renderLoop n (pos + c) lfoUpdateRate).chunks,
        updates := (pos + c) :: (renderLoop n (pos + c) lfoUpdateRate).updates } := by
  rw [renderLoop]
  have hmin : min (n - pos) c = c := by omega
  simp only [h, hmin, Nat.sub_self, dite_true]


theorem updateCount_step (m c : Nat) (hc : c ≤ m) :
    updateCount m c = updateCount (m - c) 101 + 1 := by
  unfold updateCount
  split <;> split <;> omega

theorem renderLoop_updates (n : Nat) :
    ∀ (m pos c : Nat), n - pos = m → pos ≤ n → 1 ≤ c →
      (renderLoop n pos c).updates
        = (List.range (updateCount (n - pos) c)).map (fun j => pos + c + 101 * j) := by
  intro m
  induction m using Nat.strong_induction_on with
  | _ m ih =>
    intro pos c hm hp hc
    by_cases hlt : pos < n
    · by_cases hs : n - pos < c
      · rw [renderLoop_short n pos c hlt hs]
        simp [updateCount, hs]
      · have hcle : c ≤ n - pos := by omega
        rw [renderLoop_full n pos c hlt hcle, updateCount_step _ _ hcle]
        have := ih (n - (pos + c)) (by omega) (pos + c) lfoUpdateRate rfl (by omega)
          (by simp [lfoUpdateRate])
        simp only [this, List.range_succ_eq_map, List.map_cons, List.map_map]
        have e : n - (pos + c) = n - pos - c := by omega
        simp only [lfoUpdateRate, e, Nat.mul_zero, Nat.add_zero, List.cons.injEq, true_and]
        apply List.map_congr_left
        intro j _
        simp only [Function.comp, Nat.succ_eq_add_one]
        omega
    · rw [renderLoop_done n pos c hlt]
      have : updateCount (n - pos) c = 0 := by
        unfold updateCount
        split <;> omega
      simp [this]

theorem renderLoop_counter (n : Nat) :
    ∀ (m pos c : Nat), n - pos = m → pos ≤ n → 1 ≤ c → c ≤ 101 →
      (renderLoop n pos c).lfoUpdateCounter
        = if n - pos < c then c - (n - pos) else 101 - (n - pos - c) % 101 := by
  intro m
  induction m using Nat.strong_induction_on with
  | _ m ih =>
    intro pos c hm hp hc hc'
    by_cases hlt : pos < n
    · by_cases hs : n - pos < c
      · rw [renderLoop_short n pos c hlt hs]
        simp [hs]
      · have hcle : c ≤ n - pos := by omega
        rw [renderLoop_full n pos c hlt hcle]
        have := ih (n - (pos + c)) (by omega) (pos + c) lfoUpdateRate rfl (by omega)
          (by simp [lfoUpdateRate]) (by simp [lfoUpdateRate])
        simp only [lfoUpdateRate] at this
        simp only [this, lfoUpdateRate, hs, if_false]
        split <;> omega
    · rw [renderLoop_done n pos c hlt]
      have : n - pos < c := by omega
      simp only [this, if_true]
      omega

theorem renderLoop_chunks (n : Nat) :
    ∀ (m pos c : Nat), n - pos = m → pos ≤ n → 1 ≤ c → c ≤ 101 →
      ConsecutiveFrom pos (renderLoop n pos c).chunks
      ∧ (∀ ch ∈ (renderLoop n pos c).chunks, 1 ≤ ch.2 ∧ ch.2 ≤ 101)
      ∧ ((renderLoop n pos c).chunks.map Prod.snd).sum = n - pos := by
  intro m
  induction m using Nat.strong_induction_on with
  | _ m ih =>
    intro pos c hm hp hc hc'
    by_cases hlt : pos < n
    · by_cases hs : n - pos < c
      · rw [renderLoop_short n pos c hlt hs]
        refine ⟨by simp [ConsecutiveFrom], ?_, by simp⟩
        intro ch hch
        simp only [List.mem_singleton] at hch
        subst hch
        constructor <;> simp <;> omega
      · have hcle : c ≤ n - pos := by omega
        rw [renderLoop_full n pos c hlt hcle]
        obtain ⟨h1, h2, h3⟩ := ih (n - (pos + c)) (by omega) (pos + c) lfoUpdateRate rfl
          (by omega) (by simp [lfoUpdateRate]) (by simp [lfoUpdateRate])
        refine ⟨⟨rfl, h1⟩, ?_, ?_⟩
        · intro ch hch
          rcases List.mem_cons.mp hch with h | h
          · subst h
            exact ⟨hc, hc'⟩
          · exact h2 ch h
        · simp only [List.map_cons, List.sum_cons, h3]
          omega
    · rw [renderLoop_done n pos c hlt]
      refine ⟨trivial, by simp, ?_⟩
      simp
      omega

end Voice

namespace AudioBufferQueue

variable {α : Type}

theorem WF.dest {q : AudioBufferQueue α} (h : WF q) :
    ∃ (vs ve : Int) (b0 b1 b2 b3 b4 : List α),
      q = { abstractFifo := { bufferSize := 5, validStart := vs, validEnd := ve },
            buffers := [b0, b1, b2, b3, b4] }
      ∧ 0 ≤ vs ∧ vs < 5 ∧ 0 ≤ ve ∧ ve < 5
      ∧ b0.length = bufferSize ∧ b1.length = bufferSize ∧ b2.length = bufferSize
      ∧ b3.length = bufferSize ∧ b4.length = bufferSize := by
  obtain ⟨⟨n, vs, ve⟩, bufs⟩ := q
  obtain ⟨h1, h2, h3, h4, h5, h6, h7⟩ := h
  simp only at h1 h2 h3 h4 h5 h6 h7
  subst h1
  match bufs, h6, h7 with
  | [b0, b1, b2, b3, b4], _, h7 =>
    refine ⟨vs, ve, b0, b1, b2, b3, b4, rfl, h2, h3, h4, h5, ?_, ?_, ?_, ?_, ?_⟩ <;>
      exact h7 _ (by simp)

theorem copy_full (dest src : List α) (h1 : dest.length = bufferSize)
    (h2 : src.length = bufferSize) :
    FloatVectorOperations.copy dest src bufferSize = src := by
  unfold FloatVectorOperations.copy
  rw [List.take_of_length_le (by omega), List.drop_of_length_le (by omega)]
  simp

theorem slot_length (q : AudioBufferQueue α) (h : WF q) :
    (q.buffers.getD q.abstractFifo.validEnd.toNat []).length = bufferSize := by
  obtain ⟨vs, ve, b0, b1, b2, b3, b4, rfl, h1, h2, h3, h4, l0, l1, l2, l3, l4⟩ := h.dest
  interval_cases ve <;> simp [*]

theorem writtenSlot_length (q : AudioBufferQueue α) (h : WF q) (data : List α) :
    (writtenSlot q data).length = bufferSize := by
  have hs := slot_length q h
  simp only [writtenSlot, FloatVectorOperations.copy, List.length_append, List.length_take,
    List.length_drop, hs]
  omega

theorem writtenSlot_full (q : AudioBufferQueue α) (h : WF q) (data : List α)
    (hd : data.length = bufferSize) : writtenSlot q data = data := by
  have hs := slot_length q h
  unfold writtenSlot FloatVectorOperations.copy
  rw [hd, Nat.min_self, List.take_of_length_le (by omega), List.drop_of_length_le (by omega),
    List.append_nil]

theorem unread_push_any (q : AudioBufferQueue α) (h : WF q) (data : List α)
    (hfree : q.abstractFifo.getNumReady < 4) :
    unread (push q data) = unread q ++ [writtenSlot q data] ∧ WF (push q data)
      ∧ (push q data).abstractFifo.getNumReady = q.abstractFifo.getNumReady + 1 := by
  have hw := writtenSlot_length q h data
  obtain ⟨vs, ve, b0, b1, b2, b3, b4, rfl, h1, h2, h3, h4, l0, l1, l2, l3, l4⟩ := h.dest
  simp only [writtenSlot] at hw
  interval_cases vs <;> interval_cases ve <;>
    simp [AbstractFifo.getNumReady] at hfree <;>
    simp at hw <;>
    simp [push, unread, writtenSlot, AbstractFifo.prepareToWrite, AbstractFifo.finishedWrite,
      AbstractFifo.getNumReady, l0, l1, l2, l3, l4, List.range_succ] <;>
    constructor <;> simp [*]

theorem unread_push_free (q : AudioBufferQueue α) (h : WF q) (data : List α)
    (hd : data.length = bufferSize) (hfree : q.abstractFifo.getNumReady < 4) :
    unread (push q data) = unread q ++ [data] ∧ WF (push q data)
      ∧ (push q data).abstractFifo.getNumReady = q.abstractFifo.getNumReady + 1 := by
  have := unread_push_any q h data hfree
  rw [writtenSlot_full q h data hd] at this
  exact this

theorem push_full (q : AudioBufferQueue α) (h : WF q) (data : List α)
    (hfull : ¬ q.abstractFifo.getNumReady < 4) : push q data = q := by
  obtain ⟨vs, ve, b0, b1, b2, b3, b4, rfl, h1, h2, h3, h4, _⟩ := h.dest
  interval_cases vs <;> interval_cases ve <;>
    simp [AbstractFifo.getNumReady] at hfull <;>
    simp [push, AbstractFifo.prepareToWrite, AbstractFifo.finishedWrite]

theorem wf_push (q : AudioBufferQueue α) (h : WF q) (data : List α) : WF (push q data) := by
  obtain ⟨vs, ve, b0, b1, b2, b3, b4, rfl, h1, h2, h3, h4, l0, l1, l2, l3, l4⟩ := h.dest
  have hc : ∀ b : List α, b.length = bufferSize →
      (FloatVectorOperations.copy b data (min bufferSize data.length)).length
        = bufferSize := by
    intro b hb
    simp only [FloatVectorOperations.copy, List.length_append, List.length_take,
      List.length_drop, hb]
    omega
  interval_cases vs <;> interval_cases ve <;>
    simp [push, AbstractFifo.prepareToWrite, AbstractFifo.finishedWrite] <;>
    constructor <;> simp [*]

theorem numReady_bounds (q : AudioBufferQueue α) (h : WF q) :
    0 ≤ q.abstractFifo.getNumReady ∧ q.abstractFifo.getNumReady ≤ 4 := by
  obtain ⟨vs, ve, b0, b1, b2, b3, b4, rfl, h1, h2, h3, h4, _⟩ := h.dest
  simp only [AbstractFifo.getNumReady]
  split <;> omega

theorem unread_length (q : AudioBufferQueue α) :
    (unread q).length = q.abstractFifo.getNumReady.toNat := by
  unfold unread
  rw [List.length_map, List.length_range]

theorem pop_empty (q : AudioBufferQueue α) (h : WF q) (out : List α)
    (he : q.abstractFifo.getNumReady = 0) : pop q out = (q, out) := by
  obtain ⟨vs, ve, b0, b1, b2, b3, b4, rfl, h1, h2, h3, h4, _⟩ := h.dest
  interval_cases vs <;> interval_cases ve <;>
    simp [AbstractFifo.getNumReady] at he <;>
    simp [pop, AbstractFifo.prepareToRead, AbstractFifo.finishedRead]

theorem pop_nonempty (q : AudioBufferQueue α) (h : WF q) (out : List α)
    (ho : out.length = bufferSize) (hne : 0 < q.abstractFifo.getNumReady) :
    unread q = (pop q out).2 :: unread (pop q out).1 ∧ WF (pop q out).1
      ∧ (pop q out).1.buffers = q.buffers := by
  obtain ⟨vs, ve, b0, b1, b2, b3, b4, rfl, h1, h2, h3, h4, l0, l1, l2, l3, l4⟩ := h.dest
  interval_cases vs <;> interval_cases ve <;>
    simp [AbstractFifo.getNumReady] at hne <;>
    simp [pop, unread, AbstractFifo.prepareToRead, AbstractFifo.finishedRead,
      AbstractFifo.getNumReady, ho, copy_full, l0, l1, l2, l3, l4, List.range_succ] <;>
    constructor <;> simp [*]

theorem wf_pop (q : AudioBufferQueue α) (h : WF q) (out : List α) : WF (pop q out).1 := by
  obtain ⟨vs, ve, b0, b1, b2, b3, b4, rfl, h1, h2, h3, h4, l0, l1, l2, l3, l4⟩ := h.dest
  interval_cases vs <;> interval_cases ve <;>
    simp [pop, AbstractFifo.prepareToRead, AbstractFifo.finishedRead] <;>
    constructor <;> simp [*]

theorem wf_create (buffers : List (List α)) (h1 : buffers.length = numBuffers)
    (h2 : ∀ b ∈ buffers, b.length = bufferSize) : WF (create buffers) := by
  constructor <;> simp_all [create, AbstractFifo.create, numBuffers]

theorem reachable_wf {q : AudioBufferQueue α} (h : Reachable q) : WF q := by
  induction h with
  | create buffers h1 h2 => exact wf_create buffers h1 h2
  | push data _ ih => exact wf_push _ ih data
  | pop out _ ih => exact wf_pop _ ih out

theorem unread_pushAll (bs : List (List α)) :
    ∀ q : AudioBufferQueue α, WF q → (∀ b ∈ bs, b.length = bufferSize) →
      q.abstractFifo.getNumReady + bs.length ≤ 4 →
      unread (pushAll q bs) = unread q ++ bs ∧ WF (pushAll q bs)
        ∧ (pushAll q bs).abstractFifo.getNumReady = q.abstractFifo.getNumReady + bs.length := by
  induction bs with
  | nil => intro q h _ _; simp [pushAll, h]
  | cons b bs ih =>
    intro q h hb hn
    simp only [List.length_cons, Nat.cast_add, Nat.cast_one] at hn
    obtain ⟨h1, h2, h3⟩ := unread_push_free q h b (hb b (by simp)) (by omega)
    obtain ⟨k1, k2, k3⟩ := ih (push q b) h2 (fun x hx => hb x (by simp [hx])) (by omega)
    refine ⟨?_, k2, ?_⟩
    · show unread (pushAll (push q b) bs) = _
      rw [k1, h1]
      simp
    · show (pushAll (push q b) bs).abstractFifo.getNumReady = _
      rw [k3, h3]
      simp only [List.length_cons, Nat.cast_add, Nat.cast_one]
      omega

theorem numReady_eq_zero_of_unread_nil (q : AudioBufferQueue α) (h : WF q)
    (hu : unread q = []) : q.abstractFifo.getNumReady = 0 := by
  have h1 := unread_length q
  have h2 := numReady_bounds q h
  rw [hu] at h1
  simp only [List.length_nil] at h1
  omega

/-- Popping into a list of destinations: the unread snapshots come out oldest first, and
the destinations of the pops that find the queue empty stay as they are. -/
theorem popAll_unread (dests : List (List α)) :
    ∀ q : AudioBufferQueue α, WF q → (∀ d ∈ dests, d.length = bufferSize) →
      (popAll q dests).2 = (unread q).take dests.length ++ dests.drop (unread q).length := by
  induction dests with
  | nil => intro q _ _; simp [popAll]
  | cons d ds ih =>
    intro q h hd
    by_cases hz : q.abstractFifo.getNumReady = 0
    · have hu : unread q = [] := by
        apply List.eq_nil_of_length_eq_zero
        rw [unread_length, hz]
        rfl
      have := ih q h (fun x hx => hd x (by simp [hx]))
      simp only [popAll, pop_empty q h d hz, this, hu]
      simp
    · have hpos : 0 < q.abstractFifo.getNumReady := by
        have := numReady_bounds q h
        omega
      obtain ⟨h1, h2, _⟩ := pop_nonempty q h d (hd d (by simp)) hpos
      have := ih (pop q d).1 h2 (fun x hx => hd x (by simp [hx]))
      simp only [popAll, this, List.length_cons]
      rw [h1]
      simp

theorem constBuffer_length (v : α) : (constBuffer v).length = bufferSize :=
  List.length_replicate _ _

theorem reachable_fresh (v : α) : Reachable (fresh v) :=
  Reachable.create _ (List.length_replicate _ _)
    (fun b hb => by rw [List.eq_of_mem_replicate hb]; exact constBuffer_length v)

theorem numReady_fresh (v : α) : (fresh v).abstractFifo.getNumReady = 0 := rfl

theorem constBuffer_inj {a b : α} (h : constBuffer a = constBuffer b) : a = b :=
  (List.replicate_right_inj (by decide : bufferSize ≠ 0)).mp h

end AudioBufferQueue

namespace ScopeDataCollector

theorem bufferSize_eq : bufferSize = 512 := rfl

theorem process_nil (c : ScopeDataCollector) : process c [] = some c := by
  unfold process
  cases h : c.state <;> simp [waitLoop, collectLoop, h]

theorem process_cons (c : ScopeDataCollector) (x : Sample) (data : List Sample) :
    process c (x :: data) =
      if completes c then perSample c x
      else (perSample c x).bind fun c1 => process c1 data := by
  cases h : c.state
  · by_cases ht : x ≥ triggerLevel ∧ c.prevSample < triggerLevel
    · simp [process, waitLoop, perSample, completes, h, ht]
    · simp [process, waitLoop, perSample, completes, h, ht]
  · by_cases hb : c.numCollected < bufferSize
    · by_cases he : c.numCollected + 1 = bufferSize
      · simp [process, collectLoop, perSample, completes, h, hb, he]
      · simp [process, collectLoop, perSample, completes, h, hb, he]
    · have he : ¬ (c.numCollected + 1 = bufferSize) := by omega
      simp [process, collectLoop, perSample, completes, h, hb, he]

theorem feed_cons (c : ScopeDataCollector) (x : Sample) (data : List Sample) :
    feed c (x :: data) = (perSample c x).bind fun c1 => feed c1 data := by
  simp [feed, List.foldlM_cons]

theorem feed_single (c : ScopeDataCollector) (x : Sample) : feed c [x] = perSample c x := by
  rw [feed_cons]
  cases perSample c x <;> simp [feed]

theorem feed_append (c : ScopeDataCollector) (xs ys : List Sample) :
    feed c (xs ++ ys) = (feed c xs).bind fun c1 => feed c1 ys := by
  simp [feed, List.foldlM_append]

theorem process_eq_feed_consumed (data : List Sample) :
    ∀ c : ScopeDataCollector, process c data = feed c (consumed c data) := by
  induction data with
  | nil => intro c; simp [process_nil, consumed, feed]
  | cons x data ih =>
    intro c
    rw [process_cons]
    by_cases hc : completes c = true
    · simp [consumed, hc, feed_single]
    · simp only [hc, consumed]
      cases hp : perSample c x with
      | none => simp [feed_single, hp]
      | some c1 => simp [feed_cons, hp, ih c1]

theorem consumed_initial (data : List Sample) :
    ∀ c : ScopeDataCollector, consumed c data <+: data := by
  induction data with
  | nil => intro c; simp [consumed]
  | cons x data ih =>
    intro c
    simp only [consumed]
    split
    · exact ⟨data, rfl⟩
    · split
      · rename_i c1 _
        obtain ⟨t, ht⟩ := ih c1
        exact ⟨t, by simp [ht]⟩
      · exact ⟨data, rfl⟩

theorem consumed_stop (c : ScopeDataCollector) (x : Sample) (data : List Sample)
    (h : completes c = true ∨ perSample c x = none) : consumed c (x :: data) = [x] := by
  rcases h with h | h
  · simp [consumed, h]
  · simp only [consumed, h]
    split <;> rfl

theorem consumed_go (c c1 : ScopeDataCollector) (x : Sample) (data : List Sample)
    (h : completes c = false) (hp : perSample c x = some c1) :
    consumed c (x :: data) = x :: consumed c1 data := by
  simp [consumed, h, hp]

/-- Splitting lemma: when no sample before the last one of `xs ++ ys` completes a buffer,
the same holds for `xs`, and for `ys` from the state reached after `xs`. -/
theorem consumed_append (xs ys : List Sample) :
    ∀ c : ScopeDataCollector, consumed c (xs ++ ys) = xs ++ ys →
      consumed c xs = xs ∧ ∀ c1, feed c xs = some c1 → consumed c1 ys = ys := by
  induction xs with
  | nil =>
    intro c h
    refine ⟨by simp [consumed], ?_⟩
    intro c1 hc1
    simp [feed] at hc1
    subst hc1
    simpa using h
  | cons x xs ih =>
    intro c h
    rw [List.cons_append] at h
    by_cases hstop : completes c = true ∨ perSample c x = none
    · rw [consumed_stop c x _ hstop] at h
      have hnil : xs ++ ys = [] := by simpa using h.symm
      obtain ⟨hx, hy⟩ := List.append_eq_nil.mp hnil
      subst hx hy
      refine ⟨consumed_stop c x [] hstop, ?_⟩
      intro c1 _
      simp [consumed]
    · have hc : completes c = false := by
        cases hcc : completes c
        · rfl
        · exact absurd (Or.inl hcc) hstop
      cases hp : perSample c x with
      | none => exact absurd (Or.inr hp) hstop
      | some c2 =>
        rw [consumed_go c c2 x _ hc hp] at h
        obtain ⟨h1, h2⟩ := ih c2 (by simpa using h)
        refine ⟨by rw [consumed_go c c2 x _ hc hp, h1], ?_⟩
        intro c1 hc1
        rw [feed_cons, hp] at hc1
        exact h2 c1 hc1

theorem processBlocks_nil (c : ScopeDataCollector) : processBlocks c [] = some c := rfl

theorem processBlocks_cons (c : ScopeDataCollector) (b : List Sample)
    (bs : List (List Sample)) :
    processBlocks c (b :: bs) = (process c b).bind fun c1 => processBlocks c1 bs := by
  simp only [processBlocks, List.foldlM_cons]
  rfl

theorem processBlocks_eq_feed (blocks : List (List Sample)) :
    ∀ c : ScopeDataCollector, consumed c blocks.flatten = blocks.flatten →
      processBlocks c blocks = feed c blocks.flatten := by
  induction blocks with
  | nil => intro c _; simp [processBlocks, feed]
  | cons b bs ih =>
    intro c h
    rw [List.flatten_cons] at h
    obtain ⟨h1, h2⟩ := consumed_append b bs.flatten c h
    rw [List.flatten_cons, feed_append]
    have hb : process c b = feed c b := by rw [process_eq_feed_consumed, h1]
    simp only [processBlocks, List.foldlM_cons]
    show (process c b).bind (fun c1 => processBlocks c1 bs) = _
    rw [hb]
    cases hf : feed c b with
    | none => rfl
    | some c1 => exact ih c1 (h2 c1 hf)

theorem take_set_succ (l : List Sample) (n : Nat) (y : Sample) (h : n < l.length) :
    (l.set n y).take (n + 1) = l.take n ++ [y] := by
  rw [List.set_eq_take_append_cons_drop, if_pos h]
  have hl : (l.take n).length = n := by rw [List.length_take]; omega
  rw [show l.take n ++ y :: l.drop (n + 1) = (l.take n ++ [y]) ++ l.drop (n + 1) by simp]
  exact List.take_left' (by simp [hl])

theorem set_last (l : List Sample) (n : Nat) (y : Sample) (h : l.length = n + 1) :
    l.set n y = l.take n ++ [y] := by
  rw [List.set_eq_take_append_cons_drop, if_pos (by omega)]
  rw [List.drop_of_length_le (by omega)]

/-- What a flush leaves: the completed buffer is in the capture buffer, it has been pushed
to the queue, and the collector waits again with the sentinel as `prevSample`. -/
theorem collect_run (ys : List Sample) :
    ∀ c : ScopeDataCollector, c.state = State.collecting → c.buffer.length = bufferSize →
      ys ≠ [] → c.numCollected + ys.length = bufferSize →
      feed c ys = some
        { audioBufferQueue := c.audioBufferQueue.push (c.buffer.take c.numCollected ++ ys),
          buffer := c.buffer.take c.numCollected ++ ys,
          numCollected := bufferSize,
          prevSample := sentinel,
          state := State.waitingForTrigger } := by
  induction ys with
  | nil => intro c _ _ h; exact absurd rfl h
  | cons y ys ih =>
    intro c hs hb _ hn
    cases ys with
    | nil =>
      have h1 : c.numCollected + 1 = bufferSize := by simpa using hn
      have h2 : c.numCollected < bufferSize := by omega
      rw [feed_single]
      simp only [perSample, hs, h1, h2, if_true]
      rw [set_last c.buffer c.numCollected y (by omega)]
    | cons y2 t =>
      simp only [List.length_cons] at hn
      have h1 : ¬ (c.numCollected + 1 = bufferSize) := by omega
      have h2 : c.numCollected < bufferSize := by omega
      rw [feed_cons]
      simp only [perSample, hs, h1, h2, if_true, if_false, Option.some_bind]
      rw [ih _ rfl (by simpa using hb) (by simp) (by simp only [List.length_cons]; omega)]
      simp only [take_set_succ c.buffer c.numCollected y (by omega), List.append_assoc,
        List.singleton_append]

theorem consumed_all (xs : List Sample) :
    ∀ c : ScopeDataCollector,
      (c.state = State.collecting → c.numCollected + xs.length ≤ bufferSize) →
      (c.state = State.waitingForTrigger → xs.length ≤ bufferSize + 1) →
      consumed c xs = xs := by
  induction xs with
  | nil => intro c _ _; rfl
  | cons x xs ih =>
    intro c h1 h2
    cases hs : c.state with
    | waitingForTrigger =>
      have hl := h2 hs
      simp only [List.length_cons] at hl
      have hc : completes c = false := by simp [completes, hs]
      by_cases ht : x ≥ triggerLevel ∧ c.prevSample < triggerLevel
      · rw [consumed_go c _ x xs hc (by simp only [perSample, hs, ht, and_self, if_true]; rfl)]
        rw [ih _ (by intro _; simp; omega) (by intro h; simp at h)]
      · rw [consumed_go c _ x xs hc (by simp only [perSample, hs, ht, if_false]; rfl)]
        rw [ih _ (by intro h; simp [hs] at h) (by intro _; omega)]
    | collecting =>
      have hl := h1 hs
      simp only [List.length_cons] at hl
      by_cases he : c.numCollected + 1 = bufferSize
      · have hx : xs = [] := by
          apply List.eq_nil_of_length_eq_zero
          omega
        subst hx
        exact consumed_stop c x [] (Or.inl (by simp [completes, hs, he]))
      · have hc : completes c = false := by simp [completes, hs, he]
        have hb : c.numCollected < bufferSize := by omega
        rw [consumed_go c _ x xs hc (by simp only [perSample, hs, he, hb, if_true, if_false]; rfl)]
        rw [ih _ (by intro _; simp; omega) (by intro h; simp [hs] at h)]

theorem perSample_trigger (c : ScopeDataCollector) (x : Sample)
    (hs : c.state = State.waitingForTrigger)
    (ht : x ≥ triggerLevel ∧ c.prevSample < triggerLevel) :
    perSample c x = some { c with numCollected := 0, state := State.collecting } := by
  simp only [perSample, hs, ht, and_self, if_true]

theorem perSample_wait (c : ScopeDataCollector) (x : Sample)
    (hs : c.state = State.waitingForTrigger)
    (ht : ¬ (x ≥ triggerLevel ∧ c.prevSample < triggerLevel)) :
    perSample c x = some { c with prevSample := x } := by
  simp only [perSample, hs, ht, if_false]

theorem perSample_collect (c : ScopeDataCollector) (x : Sample)
    (hs : c.state = State.collecting) (hn : c.numCollected + 1 < bufferSize) :
    perSample c x = some { c with buffer := c.buffer.set c.numCollected x,
                                  numCollected := c.numCollected + 1 } := by
  have h1 : c.numCollected < bufferSize := by omega
  have h2 : ¬ (c.numCollected + 1 = bufferSize) := by omega
  simp only [perSample, hs, h1, h2, if_true, if_false]

theorem perSample_flush (c : ScopeDataCollector) (x : Sample)
    (hs : c.state = State.collecting) (hn : c.numCollected + 1 = bufferSize) :
    perSample c x = some (flushed c x) := by
  have h1 : c.numCollected < bufferSize := by omega
  simp only [perSample, hs, h1, if_true, flushed]
  rw [if_pos hn]

theorem perSample_inv (c : ScopeDataCollector) (x : Sample) (h : Inv c) :
    ∃ c1, perSample c x = some c1 ∧ Inv c1
      ∧ (completes c = false → c1.audioBufferQueue = c.audioBufferQueue
          ∧ (c.numCollected ≠ bufferSize → c1.numCollected ≠ bufferSize)) := by
  obtain ⟨hb, hn⟩ := h
  cases hs : c.state with
  | waitingForTrigger =>
    by_cases ht : x ≥ triggerLevel ∧ c.prevSample < triggerLevel
    · refine ⟨_, perSample_trigger c x hs ht, ⟨hb, ?_⟩, ?_⟩
      · intro _
        show 0 < bufferSize
        decide
      · intro _
        refine ⟨rfl, fun _ => ?_⟩
        show 0 ≠ bufferSize
        decide
    · refine ⟨_, perSample_wait c x hs ht, ⟨hb, ?_⟩, ?_⟩
      · intro h
        simp [hs] at h
      · intro _
        exact ⟨rfl, fun h => h⟩
  | collecting =>
    have hlt := hn hs
    by_cases he : c.numCollected + 1 = bufferSize
    · refine ⟨_, perSample_flush c x hs he, ⟨?_, ?_⟩, ?_⟩
      · simpa [flushed] using hb
      · intro h
        simp [flushed] at h
      · intro hc
        simp [completes, hs, he] at hc
    · refine ⟨_, perSample_collect c x hs (by omega), ⟨?_, ?_⟩, ?_⟩
      · simpa using hb
      · intro _
        show c.numCollected + 1 < bufferSize
        omega
      · intro _
        exact ⟨rfl, fun _ => he⟩

theorem feed_inv (xs : List Sample) :
    ∀ c : ScopeDataCollector, Inv c → ∃ c1, feed c xs = some c1 ∧ Inv c1 := by
  induction xs with
  | nil => intro c h; exact ⟨c, rfl, h⟩
  | cons x xs ih =>
    intro c h
    obtain ⟨c1, h1, h2, _⟩ := perSample_inv c x h
    obtain ⟨c2, h3, h4⟩ := ih c1 h2
    exact ⟨c2, by rw [feed_cons, h1]; exact h3, h4⟩

theorem process_inv (c : ScopeDataCollector) (h : Inv c) (data : List Sample) :
    ∃ c1, process c data = some c1 ∧ Inv c1 := by
  rw [process_eq_feed_consumed]
  exact feed_inv _ c h

theorem inv_create (q : AudioBufferQueue Sample) (buffer : List Sample) (n : Nat)
    (h : buffer.length = bufferSize) : Inv (create q buffer n) :=
  ⟨h, fun hs => by simp [create] at hs⟩

theorem reachable_inv {c : ScopeDataCollector} (h : Reachable c) : Inv c := by
  induction h with
  | create q buffer n hb => exact inv_create q buffer n hb
  | process data _ hp ih =>
    obtain ⟨c2, h2, h3⟩ := process_inv _ ih data
    rw [hp] at h2
    cases h2
    exact h3

theorem completes_iff (c : ScopeDataCollector) :
    completes c = true ↔ c.state = State.collecting ∧ c.numCollected + 1 = bufferSize := by
  simp [completes]

theorem process_flush (c : ScopeDataCollector) (x : Sample) (data : List Sample)
    (hs : c.state = State.collecting) (hn : c.numCollected + 1 = bufferSize) :
    process c (x :: data) = some (flushed c x) := by
  rw [process_cons, if_pos ((completes_iff c).mpr ⟨hs, hn⟩), perSample_flush c x hs hn]

/-- When the count reaches `bufferSize` during a call, the call ends with a flush. -/
theorem process_reaches_full (data : List Sample) :
    ∀ c c1 : ScopeDataCollector, Inv c → c.numCollected ≠ bufferSize →
      process c data = some c1 → c1.numCollected = bufferSize →
      c1.state = State.waitingForTrigger ∧ c1.prevSample = sentinel
        ∧ c1.audioBufferQueue = c.audioBufferQueue.push c1.buffer := by
  induction data with
  | nil =>
    intro c c1 _ hne hp hfull
    rw [process_nil] at hp
    cases hp
    exact absurd hfull hne
  | cons x data ih =>
    intro c c1 hinv hne hp hfull
    rw [process_cons] at hp
    by_cases hc : completes c = true
    · rw [if_pos hc] at hp
      obtain ⟨h1, h2⟩ := (completes_iff c).mp hc
      rw [perSample_flush c x h1 h2] at hp
      cases hp
      exact ⟨rfl, rfl, rfl⟩
    · have hc' : completes c = false := by
        cases hcc : completes c
        · rfl
        · exact absurd hcc hc
      obtain ⟨c2, h1, h2, h3⟩ := perSample_inv c x hinv
      rw [if_neg hc, h1] at hp
      obtain ⟨hq, hn2⟩ := h3 hc'
      have := ih c2 c1 h2 (hn2 hne) hp hfull
      rw [hq] at this
      exact this

/-- Collecting without completing the buffer: the samples are written one after the other
from position `numCollected` on. -/
theorem collect_partial (ys : List Sample) :
    ∀ c : ScopeDataCollector, c.state = State.collecting → c.buffer.length = bufferSize →
      c.numCollected + ys.length < bufferSize →
      feed c ys = some
        { c with buffer := c.buffer.take c.numCollected ++ ys
                             ++ c.buffer.drop (c.numCollected + ys.length),
                 numCollected := c.numCollected + ys.length } := by
  induction ys with
  | nil =>
    intro c _ _ _
    simp [feed]
  | cons y ys ih =>
    intro c hs hb hn
    simp only [List.length_cons] at hn
    rw [feed_cons, perSample_collect c y hs (by omega), Option.some_bind]
    have hrec := ih { c with buffer := c.buffer.set c.numCollected y,
                             numCollected := c.numCollected + 1 }
      hs (by simpa using hb) (by simp only; omega)
    rw [hrec]
    simp only [take_set_succ c.buffer c.numCollected y (by omega), List.length_cons]
    rw [List.drop_set_of_lt y c.buffer (by omega)]
    simp only [List.append_assoc, List.singleton_append, Nat.add_assoc, Nat.add_comm 1]

theorem process_to_nearlyFull (zs : List Sample) (hlen : zs.length = 511)
    (hbuf : List.take 0 (AudioBufferQueue.constBuffer (0 : Sample)) ++ zs
        ++ List.drop (0 + zs.length) (AudioBufferQueue.constBuffer 0)
      = AudioBufferQueue.constBuffer 0) :
    process initial (0 :: 1 / 2 :: zs) = some nearlyFull := by
  rw [process_eq_feed_consumed, consumed_all _ _ (by intro h; simp [initial, create] at h)
    (by intro _; simp only [List.length_cons, hlen]; decide)]
  rw [feed_cons, perSample_wait _ _ rfl (by norm_num [triggerLevel]), Option.some_bind,
    feed_cons, perSample_trigger _ _ rfl (by norm_num [triggerLevel, initial, create]),
    Option.some_bind]
  have hrun := collect_partial zs
    { audioBufferQueue := AudioBufferQueue.fresh 0,
      buffer := AudioBufferQueue.constBuffer 0,
      numCollected := 0,
      prevSample := 0,
      state := State.collecting } rfl (AudioBufferQueue.constBuffer_length 0)
    (by simp only [hlen]; decide)
  simp only [hbuf] at hrun
  simp only [hlen] at hrun
  exact hrun

/-- The collector `nearlyFull` arises from a fresh collector in one call: the block holds a
0, the crossing sample 1/2 and 511 further samples of value 0. -/
theorem nearlyFull_reachable : Reachable nearlyFull := by
  have hlen : (List.replicate 511 (0 : Sample)).length = 511 := List.length_replicate _ _
  refine Reachable.process (0 :: 1 / 2 :: List.replicate 511 0)
    (Reachable.create (AudioBufferQueue.fresh 0) (AudioBufferQueue.constBuffer 0) 0
      (AudioBufferQueue.constBuffer_length 0)) ?_
  apply process_to_nearlyFull _ hlen
  rw [hlen, List.take_zero, List.nil_append]
  unfold AudioBufferQueue.constBuffer
  rw [List.drop_replicate, List.append_replicate_replicate]
  exact congrArg (fun n => List.replicate n (0 : Sample)) (by decide)

theorem completes_false_of_ne {c : ScopeDataCollector} (h : ¬ completes c = true) :
    completes c = false := by
  cases hcc : completes c
  · rfl
  · exact absurd hcc h

/-- A step that does not complete the buffer leaves the queue alone, and ends waiting only
when it started waiting, with the count and the capture buffer untouched. -/
theorem perSample_of_not_completes (c c2 : ScopeDataCollector) (y : Sample)
    (hc : completes c = false) (hp : perSample c y = some c2) :
    c2.audioBufferQueue = c.audioBufferQueue
    ∧ (c2.state = State.waitingForTrigger →
        c.state = State.waitingForTrigger ∧ c2.numCollected = c.numCollected
          ∧ c2.buffer = c.buffer) := by
  cases hs : c.state with
  | waitingForTrigger =>
    by_cases ht : y ≥ triggerLevel ∧ c.prevSample < triggerLevel
    · rw [perSample_trigger c y hs ht] at hp
      cases hp
      exact ⟨rfl, fun h => by simp at h⟩
    · rw [perSample_wait c y hs ht] at hp
      cases hp
      exact ⟨rfl, fun _ => ⟨rfl, rfl, rfl⟩⟩
  | collecting =>
    by_cases hlt : c.numCollected + 1 < bufferSize
    · rw [perSample_collect c y hs hlt] at hp
      cases hp
      exact ⟨rfl, fun h => by simp [hs] at h⟩
    · by_cases he : c.numCollected + 1 = bufferSize
      · have : completes c = true := (completes_iff c).mpr ⟨hs, he⟩
        rw [hc] at this
        exact absurd this (by decide)
      · have hge : ¬ c.numCollected < bufferSize := by omega
        simp only [perSample, hs, hge, if_false] at hp
        cases hp

/-- Inside a call: when the samples read so far leave the collector collecting, one sample
short of a full buffer, the next sample of the block flushes, whatever follows it. -/
theorem process_append_flush (xs : List Sample) :
    ∀ (c c1 : ScopeDataCollector) (x : Sample) (rest : List Sample),
      process c xs = some c1 → c1.state = State.collecting →
      c1.numCollected + 1 = bufferSize →
      process c (xs ++ x :: rest) = some (flushed c1 x) := by
  induction xs with
  | nil =>
    intro c c1 x rest hp hs hn
    rw [process_nil] at hp
    cases hp
    exact process_flush c x rest hs hn
  | cons y ys ih =>
    intro c c1 x rest hp hs hn
    rw [process_cons] at hp
    rw [List.cons_append, process_cons]
    by_cases hc : completes c = true
    · rw [if_pos hc] at hp
      obtain ⟨h1, h2⟩ := (completes_iff c).mp hc
      rw [perSample_flush c y h1 h2] at hp
      cases hp
      simp [flushed] at hs
    · rw [if_neg hc] at hp
      rw [if_neg hc]
      cases hq : perSample c y with
      | none =>
        rw [hq] at hp
        cases hp
      | some c2 =>
        rw [hq, Option.some_bind] at hp
        rw [Option.some_bind]
        exact ih c2 c1 x rest hp hs hn

/-- Every call either ends with a flush, at the sample that finds the collector collecting
one short of a full buffer, or leaves the queue alone and ends collecting or, entered
waiting, still waiting with the count and the capture buffer untouched. -/
theorem process_cases (data : List Sample) :
    ∀ c c1 : ScopeDataCollector, process c data = some c1 →
      (∃ (xs : List Sample) (x : Sample) (rest : List Sample) (c2 : ScopeDataCollector),
          data = xs ++ x :: rest ∧ process c xs = some c2 ∧ c2.state = State.collecting
            ∧ c2.numCollected + 1 = bufferSize ∧ c1 = flushed c2 x)
      ∨ (c1.audioBufferQueue = c.audioBufferQueue
          ∧ (c1.state = State.collecting
              ∨ (c.state = State.waitingForTrigger ∧ c1.state = State.waitingForTrigger
                  ∧ c1.numCollected = c.numCollected ∧ c1.buffer = c.buffer))) := by
  induction data with
  | nil =>
    intro c c1 hp
    rw [process_nil] at hp
    cases hp
    right
    refine ⟨rfl, ?_⟩
    cases hs : c.state with
    | waitingForTrigger => exact Or.inr ⟨rfl, rfl, rfl, rfl⟩
    | collecting => exact Or.inl rfl
  | cons y ys ih =>
    intro c c1 hp
    rw [process_cons] at hp
    by_cases hc : completes c = true
    · rw [if_pos hc] at hp
      obtain ⟨h1, h2⟩ := (completes_iff c).mp hc
      rw [perSample_flush c y h1 h2] at hp
      cases hp
      exact Or.inl ⟨[], y, ys, c, rfl, process_nil c, h1, h2, rfl⟩
    · rw [if_neg hc] at hp
      have hcf := completes_false_of_ne hc
      cases hq : perSample c y with
      | none =>
        rw [hq] at hp
        cases hp
      | some c2 =>
        rw [hq, Option.some_bind] at hp
        obtain ⟨hqueue, hwait⟩ := perSample_of_not_completes c c2 y hcf hq
        rcases ih c2 c1 hp with ⟨xs, x, rest, c3, hd, hpx, hs3, hn3, hfl⟩ | ⟨hq1, hrest⟩
        · left
          refine ⟨y :: xs, x, rest, c3, by rw [hd]; rfl, ?_, hs3, hn3, hfl⟩
          rw [process_cons, if_neg hc, hq, Option.some_bind]
          exact hpx
        · right
          refine ⟨hq1.trans hqueue, ?_⟩
          rcases hrest with hcol | ⟨hw2, hw1, hcount, hbuf⟩
          · exact Or.inl hcol
          · obtain ⟨hcw, hcn, hcb⟩ := hwait hw2
            exact Or.inr ⟨hcw, hw1, hcount.trans hcn, hbuf.trans hcb⟩

/-- One call that collects up to the end of the buffer: it flushes at the sample that fills
the buffer and never reads what follows in the block. -/
theorem process_collect_run (ys : List Sample) :
    ∀ (c : ScopeDataCollector) (rest : List Sample), c.state = State.collecting →
      c.buffer.length = bufferSize → ys ≠ [] → c.numCollected + ys.length = bufferSize →
      process c (ys ++ rest) = some
        { audioBufferQueue := c.audioBufferQueue.push (c.buffer.take c.numCollected ++ ys),
          buffer := c.buffer.take c.numCollected ++ ys,
          numCollected := bufferSize,
          prevSample := sentinel,
          state := State.waitingForTrigger } := by
  induction ys with
  | nil => intro c _ _ _ h; exact absurd rfl h
  | cons y ys ih =>
    intro c rest hs hb _ hn
    cases ys with
    | nil =>
      have h1 : c.numCollected + 1 = bufferSize := by simpa using hn
      rw [List.singleton_append, process_flush c y rest hs h1, flushed,
        set_last c.buffer c.numCollected y (by omega), h1]
    | cons y2 t =>
      simp only [List.length_cons] at hn
      have hc : ¬ completes c = true := by
        intro h
        have := ((completes_iff c).mp h).2
        omega
      rw [List.cons_append, process_cons, if_neg hc,
        perSample_collect c y hs (by omega), Option.some_bind]
      have hrec := ih { c with buffer := c.buffer.set c.numCollected y,
                               numCollected := c.numCollected + 1 }
        rest hs (by simpa using hb) (by simp) (by simp only [List.length_cons]; omega)
      rw [hrec]
      simp only [take_set_succ c.buffer c.numCollected y (by omega), List.append_assoc,
        List.singleton_append]

end ScopeDataCollector

namespace ScopeComponent

variable {K : Type} [LinearOrderedField K]

theorem jlimit_mem (lo hi v : K) (h : lo ≤ hi) :
    lo ≤ jlimit lo hi v ∧ jlimit lo hi v ≤ hi := by
  unfold jlimit
  split
  · exact ⟨le_refl _, h⟩
  · split
    · exact ⟨h, le_refl _⟩
    · constructor
      · exact le_of_not_lt (by assumption)
      · exact le_of_not_lt (by assumption)

theorem jmap_unit (v : K) : jmap v mindB maxdB 0 1 = (v + 160) / 160 := by
  simp only [jmap, mindB, maxdB]
  ring

theorem displayValue_mem (log10 : K → K) (s : K) :
    0 ≤ displayValue log10 s ∧ displayValue log10 s ≤ 1 := by
  unfold displayValue
  rw [jmap_unit]
  obtain ⟨h1, h2⟩ := jlimit_mem (mindB : K) maxdB
    (gainToDecibels log10 s - gainToDecibels log10 (fftSize : K)) (by simp [mindB, maxdB])
  simp only [mindB, maxdB] at h1 h2 ⊢
  constructor
  · apply div_nonneg <;> linarith
  · rw [div_le_one (by norm_num)]
    linarith

theorem displayValue_zero (log10 : K → K) (h1 : -5 ≤ log10 512) (h2 : log10 512 < 3) :
    displayValue log10 0 = (60 - 20 * log10 512) / 160 := by
  have hf : ((fftSize : Nat) : K) = 512 := by
    have : fftSize = 512 := rfl
    rw [this]
    norm_num
  unfold displayValue
  rw [jmap_unit, hf]
  have hpos : (512 : K) > 0 := by norm_num
  simp only [gainToDecibels, lt_self_iff_false, gt_iff_lt, if_false, hpos, if_true,
    defaultMinusInfinitydB]
  have hmax : max (-100 : K) (log10 512 * 20) = log10 512 * 20 := max_eq_right (by linarith)
  rw [hmax]
  unfold jlimit
  rw [if_neg (by simp only [mindB]; linarith), if_neg (by simp only [maxdB]; linarith)]
  ring

theorem logb_512_bounds : (2 : ℝ) < Real.logb 10 512 ∧ Real.logb 10 512 < 3 := by
  constructor
  · rw [Real.lt_logb_iff_rpow_lt (by norm_num) (by norm_num)]
    norm_num
  · rw [Real.logb_lt_iff_lt_rpow (by norm_num) (by norm_num)]
    norm_num

end ScopeComponent

namespace AudioBufferQueue

/-- C1 (as amended). Queue conservation up to four outstanding buffers: pushing `k ≤ 4`
full-size buffers onto an empty queue and then popping `k` times returns, at the i-th pop,
exactly the i-th buffer pushed. -/
theorem queue_conservation (q : AudioBufferQueue Sample) (hq : Reachable q)
    (hempty : q.abstractFifo.getNumReady = 0) (bs dests : List (List Sample))
    (hk : bs.length ≤ 4) (hb : ∀ b ∈ bs, b.length = bufferSize)
    (hd : dests.length = bs.length) (hdl : ∀ d ∈ dests, d.length = bufferSize) :
    (popAll (pushAll q bs) dests).2 = bs := by
  have hwf := reachable_wf hq
  obtain ⟨h1, h2, _⟩ := unread_pushAll bs q hwf hb (by rw [hempty]; omega)
  have hu : unread q = [] := by
    apply List.eq_nil_of_length_eq_zero
    rw [unread_length, hempty]
    rfl
  rw [popAll_unread dests _ h2 hdl, h1, hu, hd, List.nil_append, List.take_length,
    List.drop_of_length_le (by omega), List.append_nil]

/-- Witness for C1: three constant buffers pushed onto a fresh queue come back in order. -/
theorem queue_conservation_witness :
    (popAll (pushAll (fresh (0 : Sample)) [constBuffer 1, constBuffer 2, constBuffer 3])
      [constBuffer 0, constBuffer 0, constBuffer 0]).2
      = [constBuffer 1, constBuffer 2, constBuffer 3] :=
  queue_conservation _ (reachable_fresh 0) (numReady_fresh 0) _ _ (by decide)
    (by simp [constBuffer_length]) rfl (by simp [constBuffer_length])

/-- Counterexample to C1 as stated (k = 5): after five pushes onto an empty queue the
fifth pop does not return the fifth buffer; it finds the queue empty and leaves its
destination as it was. -/
theorem queue_conservation_fails_at_five :
    (popAll
        (pushAll (fresh (0 : Sample))
          [constBuffer 1, constBuffer 2, constBuffer 3, constBuffer 4, constBuffer 5])
        [constBuffer 0, constBuffer 0, constBuffer 0, constBuffer 0, constBuffer 0]).2
      = [constBuffer 1, constBuffer 2, constBuffer 3, constBuffer 4, constBuffer 0]
    ∧ constBuffer (0 : Sample) ≠ constBuffer 5 := by
  constructor
  · have hwf := reachable_wf (reachable_fresh (0 : Sample))
    obtain ⟨h1, h2, h3⟩ := unread_pushAll
      [constBuffer (1 : Sample), constBuffer 2, constBuffer 3, constBuffer 4] (fresh 0) hwf
      (by simp [constBuffer_length]) (by rw [numReady_fresh]; decide)
    have hfull : pushAll (fresh (0 : Sample))
        [constBuffer 1, constBuffer 2, constBuffer 3, constBuffer 4, constBuffer 5]
        = pushAll (fresh 0) [constBuffer 1, constBuffer 2, constBuffer 3, constBuffer 4] := by
      show push (pushAll (fresh (0 : Sample))
        [constBuffer 1, constBuffer 2, constBuffer 3, constBuffer 4]) (constBuffer 5) = _
      apply push_full _ h2
      rw [h3, numReady_fresh]
      decide
    have hu : unread (fresh (0 : Sample)) = [] := by
      apply List.eq_nil_of_length_eq_zero
      rw [unread_length, numReady_fresh]
      rfl
    rw [hfull, popAll_unread _ _ h2 (by simp [constBuffer_length]), h1, hu]
    rfl
  · intro h
    have h0 : (0 : Sample) = 5 := constBuffer_inj h
    norm_num at h0

/-- C5. A push never disturbs unread data. After `push` on a reachable queue the unread
snapshots are the previous ones followed by the newly written slot when a slot was free
(the slot holds exactly the pushed buffer when that is full-size), and the queue is exactly
as before when it was full. Either way the snapshots unread before the push are still
delivered by the next pops, with the same contents and in the same order. -/
theorem push_preserves_unread (q : AudioBufferQueue Sample) (hq : Reachable q)
    (data : List Sample) :
    (unread (push q data) = unread q ++ [writtenSlot q data] ∨ push q data = q)
    ∧ (0 < q.abstractFifo.getFreeSpace →
        unread (push q data) = unread q ++ [writtenSlot q data])
    ∧ (q.abstractFifo.getFreeSpace ≤ 0 → push q data = q)
    ∧ (data.length = bufferSize → writtenSlot q data = data)
    ∧ unread q <+: unread (push q data)
    ∧ ∀ dests : List (List Sample), dests.length = (unread q).length →
        (∀ d ∈ dests, d.length = bufferSize) →
        (popAll q dests).2 = unread q ∧ (popAll (push q data) dests).2 = unread q := by
  have hwf := reachable_wf hq
  have hsz : q.abstractFifo.bufferSize = 5 := hwf.size
  have hfs : q.abstractFifo.getFreeSpace = 4 - q.abstractFifo.getNumReady := by
    simp only [AbstractFifo.getFreeSpace, hsz]
    omega
  have hpre : unread q <+: unread (push q data) := by
    by_cases hf : q.abstractFifo.getNumReady < 4
    · rw [(unread_push_any q hwf data hf).1]
      exact List.prefix_append _ _
    · rw [push_full q hwf data hf]
  refine ⟨?_, ?_, ?_, writtenSlot_full q hwf data, hpre, ?_⟩
  · by_cases hf : q.abstractFifo.getNumReady < 4
    · exact Or.inl (unread_push_any q hwf data hf).1
    · exact Or.inr (push_full q hwf data hf)
  · intro hf
    exact (unread_push_any q hwf data (by omega)).1
  · intro hf
    exact push_full q hwf data (by omega)
  · intro dests hl hdl
    constructor
    · rw [popAll_unread dests q hwf hdl, hl, List.take_length,
        List.drop_of_length_le (by omega), List.append_nil]
    · obtain ⟨t, ht⟩ := hpre
      rw [popAll_unread dests _ (wf_push q hwf data) hdl, ← ht, hl, List.take_left,
        List.drop_of_length_le (by simp only [List.length_append]; omega), List.append_nil]

/-- Witness for C5: a second push onto a queue that already holds one snapshot. -/
theorem push_preserves_unread_witness :
    (unread (push (push (fresh (0 : Sample)) (constBuffer 7)) (constBuffer 8))
        = unread (push (fresh (0 : Sample)) (constBuffer 7))
            ++ [writtenSlot (push (fresh (0 : Sample)) (constBuffer 7)) (constBuffer 8)]
      ∨ push (push (fresh (0 : Sample)) (constBuffer 7)) (constBuffer 8)
          = push (fresh 0) (constBuffer 7))
    ∧ unread (push (fresh (0 : Sample)) (constBuffer 7))
        <+: unread (push (push (fresh (0 : Sample)) (constBuffer 7)) (constBuffer 8)) :=
  have h := push_preserves_unread (push (fresh 0) (constBuffer 7))
    (Reachable.push _ (reachable_fresh 0)) (constBuffer 8)
  ⟨h.1, h.2.2.2.2.1⟩

/-- C6. A pop on a queue without unread snapshot changes nothing: the destination keeps
all its samples, and the slots and both cursors of the queue stay as they were, so the
queue is still empty. -/
theorem pop_empty_unchanged (q : AudioBufferQueue Sample) (hq : Reachable q)
    (hempty : q.abstractFifo.getNumReady = 0) (outputBuffer : List Sample) :
    pop q outputBuffer = (q, outputBuffer)
    ∧ (pop q outputBuffer).1.abstractFifo.getNumReady = 0 := by
  have h := pop_empty q (reachable_wf hq) outputBuffer hempty
  exact ⟨h, by rw [h]; exact hempty⟩

/-- Witness for C6: a pop on a fresh queue. -/
theorem pop_empty_unchanged_witness :
    pop (fresh (0 : Sample)) (constBuffer 3) = (fresh 0, constBuffer 3)
    ∧ (pop (fresh (0 : Sample)) (constBuffer 3)).1.abstractFifo.getNumReady = 0 :=
  pop_empty_unchanged (fresh 0) (reachable_fresh 0) (numReady_fresh 0) (constBuffer 3)

end AudioBufferQueue

namespace ScopeDataCollector

/-- C2. Trigger capture content: from a waiting collector whose previous sample was below
the trigger level, a sample at or above the level followed by 512 samples, delivered in
any split into blocks, first switches to collecting with the count at 0, and ends with
exactly those 512 samples (without the crossing sample) in the capture buffer and pushed
to the queue, the collector waiting again. -/
theorem trigger_capture_content (c : ScopeDataCollector)
    (hs : c.state = State.waitingForTrigger) (hb : c.buffer.length = bufferSize)
    (hp : c.prevSample < triggerLevel) (s : Sample) (hcross : s ≥ triggerLevel)
    (xs : List Sample) (hx : xs.length = bufferSize)
    (blocks : List (List Sample)) (hsplit : blocks.flatten = s :: xs) :
    process c [s] = some { c with numCollected := 0, state := State.collecting }
    ∧ processBlocks c blocks = some
        { audioBufferQueue := c.audioBufferQueue.push xs,
          buffer := xs,
          numCollected := bufferSize,
          prevSample := sentinel,
          state := State.waitingForTrigger }
    ∧ (AudioBufferQueue.Reachable c.audioBufferQueue →
        0 < c.audioBufferQueue.abstractFifo.getFreeSpace →
        (c.audioBufferQueue.push xs).unread = c.audioBufferQueue.unread ++ [xs]) := by
  have hc : completes c = false := by simp [completes, hs]
  have hstep := perSample_trigger c s hs ⟨hcross, hp⟩
  refine ⟨?_, ?_, ?_⟩
  · rw [process_cons, hc, hstep]
    simp only [Bool.false_eq_true, if_false, Option.some_bind]
    exact process_nil _
  rotate_left
  · intro hq hfree
    have hwf := AudioBufferQueue.reachable_wf hq
    have hsz : c.audioBufferQueue.abstractFifo.bufferSize = 5 := hwf.size
    refine (AudioBufferQueue.unread_push_free _ hwf xs hx ?_).1
    simp only [AbstractFifo.getFreeSpace, hsz] at hfree
    omega
  · have hall : consumed c (s :: xs) = s :: xs :=
      consumed_all (s :: xs) c (by intro h; simp [hs] at h)
        (by intro _; simp only [List.length_cons]; omega)
    rw [processBlocks_eq_feed blocks c (by rw [hsplit]; exact hall), hsplit, feed_cons, hstep]
    simp only [Option.some_bind]
    have hne : xs ≠ [] := by
      intro h
      rw [h] at hx
      exact absurd hx (by decide)
    have hrun := collect_run xs { c with numCollected := 0, state := State.collecting } rfl hb
      hne (by simp only [Nat.zero_add]; exact hx)
    rw [hrun]
    simp

/-- Witness for C2: a waiting collector whose last sample was 0 is fed the crossing sample
1/2 and then 512 samples of value 1/4, split into three blocks. -/
theorem trigger_capture_content_witness :
    process armed [1 / 2] = some { armed with numCollected := 0, state := State.collecting }
    ∧ processBlocks armed [[1 / 2], [], AudioBufferQueue.constBuffer (1 / 4)]
      = some
        { audioBufferQueue :=
            armed.audioBufferQueue.push (AudioBufferQueue.constBuffer (1 / 4)),
          buffer := AudioBufferQueue.constBuffer (1 / 4),
          numCollected := bufferSize,
          prevSample := sentinel,
          state := State.waitingForTrigger } :=
  have h := trigger_capture_content armed rfl
    (AudioBufferQueue.constBuffer_length 0) (by norm_num [armed, triggerLevel]) (1 / 2)
    (by norm_num [triggerLevel]) (AudioBufferQueue.constBuffer (1 / 4))
    (AudioBufferQueue.constBuffer_length _) [[1 / 2], [], AudioBufferQueue.constBuffer (1 / 4)]
    (by simp)
  ⟨h.1, h.2.1⟩

/-- C8 (as amended). One `process` call equals feeding, one sample at a time, the samples of
the block up to and including the first one that completes a capture buffer; the samples
after it in the block are not read. A call on a single-sample block is the per-sample
transition, and a call equals the per-sample machine over the whole block whenever no
buffer can be completed before the last sample (while collecting, the block fits into the
rest of the buffer; while waiting, it has at most 513 samples). -/
theorem block_vs_per_sample (c : ScopeDataCollector) (data : List Sample) :
    (∀ x : Sample, process c [x] = perSample c x)
    ∧ processBlocks c (data.map fun x => [x]) = feed c data
    ∧ process c data = feed c (consumed c data)
    ∧ consumed c data <+: data
    ∧ ((c.state = State.collecting → c.numCollected + data.length ≤ bufferSize) →
        (c.state = State.waitingForTrigger → data.length ≤ bufferSize + 1) →
        process c data = feed c data) := by
  have hone : ∀ (c1 : ScopeDataCollector) (x : Sample), process c1 [x] = perSample c1 x := by
    intro c1 x
    rw [process_eq_feed_consumed]
    have : consumed c1 [x] = [x] := by
      simp only [consumed]
      split
      · rfl
      · split <;> rfl
    rw [this, feed_single]
  refine ⟨hone c, ?_, process_eq_feed_consumed data c, consumed_initial data c, ?_⟩
  · induction data generalizing c with
    | nil => rfl
    | cons x data ih =>
      simp only [List.map_cons, processBlocks, List.foldlM_cons]
      rw [feed_cons]
      rw [hone c x]
      cases perSample c x with
      | none => rfl
      | some c1 => exact ih c1
  · intro h1 h2
    rw [process_eq_feed_consumed, consumed_all data c h1 h2]

/-- Counterexample to C8 as stated: a collector one sample short of a full buffer (a
reachable state) gets the block `[0, 0, 1/2]`. One call flushes at the first sample and
never reads the other two, so it ends waiting; three single-sample calls read all three,
see the crossing from 0 to 1/2 and end collecting. -/
theorem block_vs_per_sample_differs :
    Reachable nearlyFull
    ∧ process nearlyFull [0, 0, 1 / 2] ≠ processBlocks nearlyFull [[0], [0], [1 / 2]]
    ∧ (process nearlyFull [0, 0, 1 / 2]).map (fun c => c.state)
        = some State.waitingForTrigger
    ∧ (processBlocks nearlyFull [[0], [0], [1 / 2]]).map (fun c => c.state)
        = some State.collecting := by
  have hn : nearlyFull.numCollected + 1 = bufferSize := rfl
  have hs : nearlyFull.state = State.collecting := rfl
  have hblock : (process nearlyFull [0, 0, 1 / 2]).map (fun c => c.state)
      = some State.waitingForTrigger := by
    rw [process_flush nearlyFull 0 _ hs hn]
    rfl
  have hsingle : (processBlocks nearlyFull [[0], [0], [1 / 2]]).map (fun c => c.state)
      = some State.collecting := by
    have h1 : process nearlyFull [0] = some (flushed nearlyFull 0) :=
      process_flush nearlyFull 0 [] hs hn
    have h2 : process (flushed nearlyFull 0) [0]
        = some { flushed nearlyFull 0 with prevSample := 0 } := by
      rw [process_cons, perSample_wait _ _ rfl (by norm_num [triggerLevel])]
      simp [completes, flushed, process_nil]
    have h3 : process { flushed nearlyFull 0 with prevSample := 0 } [1 / 2]
        = some { flushed nearlyFull 0 with
                   prevSample := 0, numCollected := 0, state := State.collecting } := by
      rw [process_cons, perSample_trigger _ _ rfl (by norm_num [triggerLevel])]
      simp [completes, flushed, process_nil]
    rw [processBlocks_cons, h1, Option.some_bind, processBlocks_cons, h2, Option.some_bind,
      processBlocks_cons, h3, Option.some_bind, processBlocks_nil]
    rfl
  refine ⟨nearlyFull_reachable, ?_, hblock, hsingle⟩
  intro h
  rw [h, hsingle] at hblock
  cases hblock

/-- C9. Capture buffer bound: in every state reachable from a freshly constructed collector
by `process` calls, the capture buffer has its 512 entries and, while collecting, the count
is below 512; from such a state no call writes outside the buffer (every block is
processed to the end, into a reachable state). Whenever the count reaches 512 the buffer
is flushed to the queue, the state returns to waiting and `prevSample` is set to 100: on
entry (a call entered collecting at 511), anywhere inside a call (the samples read so far
leave the collector collecting at 511, then the next sample flushes, whatever the state and
the count on entry), and for a whole capture inside one call entered waiting (crossing
sample, then 512 samples). Conversely a call that does not end with such a flush leaves
the queue alone and ends collecting, below 512, or still waiting with count and buffer
untouched. -/
theorem capture_buffer_bound (c : ScopeDataCollector) (h : Reachable c) :
    (c.state = State.collecting → c.numCollected < bufferSize)
    ∧ c.buffer.length = bufferSize
    ∧ (∀ data : List Sample, ∃ c1, process c data = some c1 ∧ Reachable c1
        ∧ (c1.state = State.collecting → c1.numCollected < bufferSize))
    ∧ (∀ (x : Sample) (data : List Sample), c.state = State.collecting →
        c.numCollected + 1 = bufferSize →
        process c (x :: data) = some
          { audioBufferQueue := c.audioBufferQueue.push (c.buffer.set c.numCollected x),
            buffer := c.buffer.set c.numCollected x,
            numCollected := bufferSize,
            prevSample := 100,
            state := State.waitingForTrigger })
    ∧ (∀ (data : List Sample) (c1 : ScopeDataCollector), process c data = some c1 →
        c.numCollected ≠ bufferSize → c1.numCollected = bufferSize →
        c1.state = State.waitingForTrigger ∧ c1.prevSample = 100
          ∧ c1.audioBufferQueue = c.audioBufferQueue.push c1.buffer)
    ∧ (∀ (xs : List Sample) (c1 : ScopeDataCollector) (x : Sample) (rest : List Sample),
        process c xs = some c1 → c1.state = State.collecting →
        c1.numCollected + 1 = bufferSize →
        process c (xs ++ x :: rest) = some
          { audioBufferQueue := c1.audioBufferQueue.push (c1.buffer.set c1.numCollected x),
            buffer := c1.buffer.set c1.numCollected x,
            numCollected := bufferSize,
            prevSample := 100,
            state := State.waitingForTrigger })
    ∧ (∀ (s : Sample) (xs rest : List Sample), c.state = State.waitingForTrigger →
        c.prevSample < triggerLevel → s ≥ triggerLevel → xs.length = bufferSize →
        process c (s :: (xs ++ rest)) = some
          { audioBufferQueue := c.audioBufferQueue.push xs,
            buffer := xs,
            numCollected := bufferSize,
            prevSample := 100,
            state := State.waitingForTrigger })
    ∧ (∀ (data : List Sample) (c1 : ScopeDataCollector), process c data = some c1 →
        (∃ (xs : List Sample) (x : Sample) (rest : List Sample) (c2 : ScopeDataCollector),
            data = xs ++ x :: rest ∧ process c xs = some c2 ∧ c2.state = State.collecting
              ∧ c2.numCollected + 1 = bufferSize
              ∧ c1 = { audioBufferQueue :=
                         c2.audioBufferQueue.push (c2.buffer.set c2.numCollected x),
                       buffer := c2.buffer.set c2.numCollected x,
                       numCollected := bufferSize,
                       prevSample := 100,
                       state := State.waitingForTrigger })
        ∨ (c1.audioBufferQueue = c.audioBufferQueue
            ∧ ((c1.state = State.collecting ∧ c1.numCollected < bufferSize)
                ∨ (c.state = State.waitingForTrigger ∧ c1.state = State.waitingForTrigger
                    ∧ c1.numCollected = c.numCollected ∧ c1.buffer = c.buffer)))) := by
  have hinv := reachable_inv h
  refine ⟨hinv.2, hinv.1, ?_, ?_, ?_, ?_, ?_, ?_⟩
  · intro data
    obtain ⟨c1, h1, h2⟩ := process_inv c hinv data
    exact ⟨c1, h1, Reachable.process data h h1, h2.2⟩
  · intro x data hs hn
    rw [process_flush c x data hs hn, flushed, hn]
    rfl
  · intro data c1 hp hne hfull
    exact process_reaches_full data c c1 hinv hne hp hfull
  · intro xs c1 x rest hp hs hn
    rw [process_append_flush xs c c1 x rest hp hs hn, flushed, hn]
    rfl
  · intro s xs rest hs hprev hcross hx
    have hc : ¬ completes c = true := by
      intro hcc
      have := ((completes_iff c).mp hcc).1
      rw [hs] at this
      cases this
    have hne : xs ≠ [] := by
      intro hnil
      rw [hnil] at hx
      exact absurd hx (by decide)
    rw [process_cons, if_neg hc, perSample_trigger c s hs ⟨hcross, hprev⟩, Option.some_bind]
    have hrun := process_collect_run xs
      { c with numCollected := 0, state := State.collecting } rest rfl hinv.1 hne
      (by simp only [Nat.zero_add]; exact hx)
    rw [hrun]
    simp only [List.take_zero, List.nil_append]
    rfl
  · intro data c1 hp
    rcases process_cases data c c1 hp with
      ⟨xs, x, rest, c2, hd, hpx, hs2, hn2, hfl⟩ | ⟨hq, hrest⟩
    · left
      refine ⟨xs, x, rest, c2, hd, hpx, hs2, hn2, ?_⟩
      rw [hfl, flushed, hn2]
      rfl
    · right
      refine ⟨hq, ?_⟩
      rcases hrest with hcol | hw
      · obtain ⟨c3, h3, h4⟩ := process_inv c hinv data
        rw [hp] at h3
        cases h3
        exact Or.inl ⟨hcol, h4.2 hcol⟩
      · exact Or.inr hw

/-- Witness for C9: the reachable collector that has collected 511 samples. The bound is
met with the count at 511, and the next sample of a block flushes. -/
theorem capture_buffer_bound_witness :
    Reachable nearlyFull
    ∧ nearlyFull.state = State.collecting
    ∧ nearlyFull.numCollected < bufferSize
    ∧ nearlyFull.buffer.length = bufferSize
    ∧ process nearlyFull (0 :: [0, 1 / 2]) = some
        { audioBufferQueue :=
            nearlyFull.audioBufferQueue.push (nearlyFull.buffer.set nearlyFull.numCollected 0),
          buffer := nearlyFull.buffer.set nearlyFull.numCollected 0,
          numCollected := bufferSize,
          prevSample := 100,
          state := State.waitingForTrigger } :=
  have h := capture_buffer_bound nearlyFull nearlyFull_reachable
  ⟨nearlyFull_reachable, rfl, h.1 rfl, h.2.1, h.2.2.2.1 0 [0, 1 / 2] rfl rfl⟩

end ScopeDataCollector

namespace Voice

/-- C3. Modulation cadence: for a block of `n` samples entered with a counter `c` in
1..101, `renderNextBlock` recomputes the cutoff exactly at the offsets `c`, `c + 101`,
`c + 202`, ... that are at most `n` (none when `n < c`, otherwise `(n - c) / 101 + 1` of
them), and leaves the counter at `c - n` when `n < c` and at `101 - (n - c) % 101`
otherwise. -/
theorem modulation_cadence (n c : Nat) (hc1 : 1 ≤ c) (hc2 : c ≤ 101) :
    (renderNextBlock n c).updates
      = (List.range (if n < c then 0 else (n - c) / 101 + 1)).map (fun j => c + 101 * j)
    ∧ (∀ off : Nat,
        off ∈ (renderNextBlock n c).updates ↔ off ≤ n ∧ ∃ j, off = c + 101 * j)
    ∧ (renderNextBlock n c).updates.length = (if n < c then 0 else (n - c) / 101 + 1)
    ∧ (renderNextBlock n c).lfoUpdateCounter
        = (if n < c then c - n else 101 - (n - c) % 101) := by
  have hu := renderLoop_updates n n 0 c (by omega) (by omega) hc1
  have hk := renderLoop_counter n n 0 c (by omega) (by omega) hc1 hc2
  simp only [Nat.sub_zero, Nat.zero_add, updateCount] at hu hk
  refine ⟨hu, ?_, ?_, hk⟩
  · intro off
    show off ∈ (renderLoop n 0 c).updates ↔ _
    rw [hu, List.mem_map]
    constructor
    · rintro ⟨j, hj, rfl⟩
      rw [List.mem_range] at hj
      refine ⟨?_, j, rfl⟩
      split at hj <;> omega
    · rintro ⟨hle, j, rfl⟩
      refine ⟨j, ?_, rfl⟩
      rw [List.mem_range]
      split <;> omega
  · show (renderLoop n 0 c).updates.length = _
    rw [hu, List.length_map, List.length_range]

/-- Witness for C3, the scenario of the specification: a block of 300 samples entered with
the counter at 101 recomputes the cutoff at offsets 101 and 202 and leaves the counter at
3. -/
theorem modulation_cadence_witness :
    (renderNextBlock 300 101).updates = [101, 202]
    ∧ (renderNextBlock 300 101).updates.length = 2
    ∧ (renderNextBlock 300 101).lfoUpdateCounter = 3 :=
  have h := modulation_cadence 300 101 (by decide) (by decide)
  ⟨h.1.trans (by decide), h.2.2.1.trans (by decide), h.2.2.2.trans (by decide)⟩

/-- C10. Render loop progress: for every block length `n` and every counter in 1..101 on
entry, the chunk loop of `renderNextBlock` (a total function: it always returns) processes
chunks that start at 0 and follow each other without gap, each of 1 to 101 samples, whose
sizes sum to `n`, and the counter is in 1..101 again when the call returns; the counter
after construction is 101. -/
theorem render_loop_progress (n c : Nat) (hc1 : 1 ≤ c) (hc2 : c ≤ 101) :
    ConsecutiveFrom 0 (renderNextBlock n c).chunks
    ∧ (∀ ch ∈ (renderNextBlock n c).chunks, 1 ≤ ch.2 ∧ ch.2 ≤ 101)
    ∧ ((renderNextBlock n c).chunks.map Prod.snd).sum = n
    ∧ 1 ≤ (renderNextBlock n c).lfoUpdateCounter
    ∧ (renderNextBlock n c).lfoUpdateCounter ≤ 101
    ∧ lfoUpdateRate = 101 := by
  obtain ⟨h1, h2, h3⟩ := renderLoop_chunks n n 0 c (by omega) (by omega) hc1 hc2
  have hk := renderLoop_counter n n 0 c (by omega) (by omega) hc1 hc2
  simp only [Nat.sub_zero] at h3 hk
  refine ⟨h1, h2, h3, ?_, ?_, rfl⟩
  · show 1 ≤ (renderLoop n 0 c).lfoUpdateCounter
    rw [hk]
    split <;> omega
  · show (renderLoop n 0 c).lfoUpdateCounter ≤ 101
    rw [hk]
    split <;> omega

/-- Witness for C10: a block of 300 samples entered with the counter at 101 is processed as
the chunks of 101, 101 and 98 samples. -/
theorem render_loop_progress_witness :
    (renderNextBlock 300 101).chunks = [(0, 101), (101, 101), (202, 98)]
    ∧ ((renderNextBlock 300 101).chunks.map Prod.snd).sum = 300
    ∧ 1 ≤ (renderNextBlock 300 101).lfoUpdateCounter
    ∧ (renderNextBlock 300 101).lfoUpdateCounter ≤ 101 := by
  have h := render_loop_progress 300 101 (by decide) (by decide)
  refine ⟨?_, h.2.2.1, h.2.2.2.1, h.2.2.2.2.1⟩
  simp [renderNextBlock, renderLoop_full, renderLoop_short, renderLoop_done, lfoUpdateRate]

end Voice

namespace ScopeComponent

variable {K : Type} [LinearOrderedField K]

/-- C7. Spectrum range: for every magnitude `m` the display value computed in
`timerCallback` (decibel conversion, subtraction of the decibel value of 512, clamp to
[-160, 0], remap to [0, 1]) lies in [0, 1], whatever the logarithm, the window and the
transform produce; hence every element of the spectrum array is in [0, 1] after a timer
tick. -/
theorem spectrum_range (log10 : K → K) (m : K) :
    0 ≤ displayValue log10 m ∧ displayValue log10 m ≤ 1
    ∧ ∀ (multiplyWithWindowingTable performFrequencyOnlyForwardTransform : List K → List K)
        (d : Data K),
        ∀ x ∈ (timerCallback log10 multiplyWithWindowingTable
                performFrequencyOnlyForwardTransform d).spectrumData,
          0 ≤ x ∧ x ≤ 1 := by
  refine ⟨(displayValue_mem log10 m).1, (displayValue_mem log10 m).2, ?_⟩
  intro w f d x hx
  simp only [timerCallback, normaliseSpectrum, List.mem_map] at hx
  obtain ⟨s, _, rfl⟩ := hx
  exact displayValue_mem log10 s

/-- C4 (as amended). Spectrum of silence: when every transformed magnitude is 0, every
element of the resulting spectrum array equals `(60 - 20 * log10 512) / 160` (about 0.036
for the decimal logarithm), a value strictly above 0, the minimum of the normalized range:
zero gain converts to -100 dB, and after the subtraction of the decibel value of 512 the
result is still inside the clamp range. It holds for every logarithm routine that puts
`log10 512` between 2 and 3. -/
theorem silence_spectrum (log10 : K → K) (h1 : 2 ≤ log10 512) (h2 : log10 512 < 3)
    (multiplyWithWindowingTable performFrequencyOnlyForwardTransform : List K → List K)
    (d : Data K)
    (hsilent : performFrequencyOnlyForwardTransform
        (multiplyWithWindowingTable
          (FloatVectorOperations.copy d.spectrumData (d.audioBufferQueue.pop d.sampleData).2
            (d.audioBufferQueue.pop d.sampleData).2.length))
        = List.replicate (2 * fftSize) 0) :
    (timerCallback log10 multiplyWithWindowingTable performFrequencyOnlyForwardTransform
        d).spectrumData
      = List.replicate (2 * fftSize) ((60 - 20 * log10 512) / 160)
    ∧ 0 < (60 - 20 * log10 512) / 160
    ∧ (60 - 20 * log10 512) / 160 ≤ 1 / 8 := by
  refine ⟨?_, ?_, ?_⟩
  · simp only [timerCallback, normaliseSpectrum, hsilent, List.map_replicate]
    rw [displayValue_zero log10 (by linarith) h2]
  · apply div_pos <;> linarith
  · have h160 : (0 : K) < 160 := by norm_num
    have h8 : (1 : K) / 8 = 20 / 160 := by norm_num
    rw [h8]
    exact div_le_div_of_nonneg_right (by linarith) (le_of_lt h160)

/-- Witness for C4: real samples with the decimal logarithm, an empty queue, a silent last
snapshot, and window and transform routines that return the array they are given. -/
theorem silence_spectrum_witness :
    (timerCallback (Real.logb 10) id id
        { audioBufferQueue := AudioBufferQueue.fresh (0 : ℝ),
          sampleData := List.replicate fftSize 0,
          spectrumData := List.replicate (fftSize + fftSize) 0 }).spectrumData
      = List.replicate (2 * fftSize) ((60 - 20 * Real.logb 10 512) / 160)
    ∧ 0 < (60 - 20 * Real.logb 10 512) / 160
    ∧ (60 - 20 * Real.logb 10 512) / 160 ≤ 1 / 8 :=
  silence_spectrum (Real.logb 10) (le_of_lt logb_512_bounds.1) logb_512_bounds.2 id id _
    (by
      show FloatVectorOperations.copy (List.replicate (fftSize + fftSize) (0 : ℝ))
        (List.replicate fftSize 0) (List.replicate fftSize (0 : ℝ)).length = _
      unfold FloatVectorOperations.copy
      rw [List.take_of_length_le (le_refl _), List.drop_replicate, List.length_replicate,
        Nat.add_sub_cancel, List.append_replicate_replicate, Nat.two_mul])

/-- Counterexample to C4 as stated: with the decimal logarithm, the loop of `timerCallback`
maps an all-zero array of magnitudes to an array that is not all zeros. -/
theorem silence_spectrum_not_zero :
    normaliseSpectrum (Real.logb 10) (List.replicate (2 * fftSize) (0 : ℝ))
      ≠ List.replicate (2 * fftSize) 0 := by
  intro h
  simp only [normaliseSpectrum, List.map_replicate] at h
  have h0 := (List.replicate_right_inj (by decide : 2 * fftSize ≠ 0)).mp h
  rw [displayValue_zero (Real.logb 10) (by linarith [logb_512_bounds.1]) logb_512_bounds.2] at h0
  have := logb_512_bounds.2
  have hpos : (0 : ℝ) < (60 - 20 * Real.logb 10 512) / 160 := by
    apply div_pos <;> linarith
  linarith

end ScopeComponent

